import Mathlib

/-! # rastro_timesync: the clock-synchronisation protocol engine

A shallow embedding of `src/librastro/src/timesync/rst_timesync.c`
(`timerabs`, `timer`, `receive_data`, `ping_wait_pong`, `pings`, `pongs`,
`master`) together with the socket and clock environment those functions
talk to, followed by the properties proved about them.

Conventions of the embedding

* C integers are `Int`; `timestamp_t` arithmetic is reduced with `wrapTs`
  after every operation, `int` values read from the wire or computed by
  `strlen` with `wrapInt`. The `int` counters of `receive_data` are left
  unreduced: `size - received` stays between `0` and `size` whenever
  `recv` returns a count between `0` and `size`.
* A local variable whose address is passed to `receive_data` lives at
  address `0` of a memory of its own, all zero before the first write.
  This is what the program does as long as `recv` returns no error: the
  writes of `receive_data` then stay inside the variable. After a `recv`
  that returns `-1` the C code writes below the variable, into whatever
  the compiler has placed there, which no embedding of the source can
  tell; past an `error` event the embedding shows how `receive_data`
  moves `buffer` and `size`, not the values the program goes on to
  compute.
* A byte is a `Nat`; memory is a total map from addresses to bytes.
* A socket is the list of events its `recv` calls will observe, in order.
  A `data` event is a segment handed over by the transport, an `error`
  event is a `recv` that returns `-1`; when the list is exhausted the peer
  has closed and `recv` returns `0`.
* Loops that the C code does not bound (`receive_data`, the `do..while`
  of `pongs`) take a fuel argument counting loop-body executions; running
  out of fuel is reported as `Outcome.diverged`.
-/

namespace Timesync

/-! ## Parameters fixed outside this file -/

/-- The build parameters `rst_timesync.c` takes from `rst_private.h`,
which is not among the sources, and from the machine: whether
`timestamp_t` is a signed type, the byte order of the object
representation that is put on the wire unchanged, and the value of
`RST_CLOCK_RESOLUTION`. Every property below is proved for all of
them. -/
structure Abi where
  signedTs : Bool
  bigEndian : Bool
  resolution : Int

/-! ## Machine integers and their object representation -/

/-- Reduce an integer to the signed two's-complement range of `bits` bits. -/
def toSigned (bits : Nat) (v : Int) : Int :=
  (v + 2 ^ (bits - 1)) % 2 ^ bits - 2 ^ (bits - 1)

/-- Modelled from the spec: the declaration of `timestamp_t` is in
`rst_private.h`, not among the sources; the spec gives a Timestamp as a
64-bit integer. This is arithmetic in that type, signed or unsigned by
the Abi. -/
def wrapTs (abi : Abi) (v : Int) : Int :=
  if abi.signedTs then toSigned 64 v else v % 2 ^ 64

/-- Values of type `int` (32 bits, signed). -/
def wrapInt (v : Int) : Int := toSigned 32 v

/-- Conversion of an `int` argument to the `size_t` parameter of `recv`
and `send`. -/
def sizeT (n : Int) : Nat := (n % 2 ^ 64).toNat

/-- Range of values a `timestamp_t` (64 bits, see `wrapTs`) can hold. -/
def InRangeTs (abi : Abi) (v : Int) : Prop :=
  if abi.signedTs then -(2 ^ 63) ≤ v ∧ v < 2 ^ 63 else 0 ≤ v ∧ v < 2 ^ 64

instance (abi : Abi) (v : Int) : Decidable (InRangeTs abi v) := by
  unfold InRangeTs; split <;> infer_instance

/-- Little-endian digits of a natural number, `n` bytes. -/
def leBytes : Nat → Nat → List Nat
  | 0, _ => []
  | n + 1, v => v % 256 :: leBytes n (v / 256)

/-- Value of a little-endian byte string. -/
def leValue : List Nat → Nat
  | [] => 0
  | b :: bs => b + 256 * leValue bs

/-- Object representation of an `n`-byte integer, as `send` reads it from
memory. -/
def objBytes (abi : Abi) (n : Nat) (v : Int) : List Nat :=
  let le := leBytes n (v % 2 ^ (8 * n)).toNat
  if abi.bigEndian then le.reverse else le

/-- Unsigned value of an object representation. -/
def objValue (abi : Abi) (bs : List Nat) : Nat :=
  leValue (if abi.bigEndian then bs.reverse else bs)

/-- The eight bytes of a `timestamp_t`. -/
def encodeTs (abi : Abi) (v : Int) : List Nat := objBytes abi 8 v

/-- The `timestamp_t` held by eight bytes of memory. -/
def decodeTs (abi : Abi) (bs : List Nat) : Int := wrapTs abi (objValue abi bs)

/-- The four bytes of an `int`. -/
def encodeInt (abi : Abi) (v : Int) : List Nat := objBytes abi 4 v

/-- The `int` held by four bytes of memory. -/
def decodeInt (abi : Abi) (bs : List Nat) : Int := wrapInt (objValue abi bs)

/-! ## Memory -/

/-- Byte-addressed memory. -/
def Mem : Type := Int → Nat

/-- Memory whose bytes are all zero. -/
def zeroMem : Mem := fun _ => 0

/-- Store one byte. -/
def memStore (m : Mem) (a : Int) (b : Nat) : Mem :=
  fun x => if x = a then b else m x

/-- Store consecutive bytes starting at address `a`. -/
def memWrite (m : Mem) : Int → List Nat → Mem
  | _, [] => m
  | a, b :: bs => memWrite (memStore m a b) (a + 1) bs

/-- Read `n` consecutive bytes starting at address `a`. -/
def memRead (m : Mem) (a : Int) (n : Nat) : List Nat :=
  (List.range n).map fun (i : Nat) => m (a + (i : Int))

/-- The C function `strlen` on a byte buffer given as a list. -/
def strlen (buf : List Nat) : Nat := (buf.takeWhile fun b => b != 0).length

/-- The string `printf("%s")` prints: the bytes from address `a` up to
the first zero byte, at most `n` of them. -/
def cstring (m : Mem) : Nat → Int → List Nat
  | 0, _ => []
  | n + 1, a => if m a = 0 then [] else m a :: cstring m n (a + 1)

/-! ## The environment: socket, clock, standard streams -/

/-- What one call of `recv` observes. -/
inductive Event where
  | data (bytes : List Nat)
  | error
  deriving DecidableEq, Repr

/-- Diagnostics written to `stderr`. -/
inductive Diag where
  | shortRead (received size : Int)
  | pingSendFailed
  | pongSendFailed
  deriving DecidableEq, Repr

/-- The line `master` prints: `"%s %lld %s %lld\n"`. -/
structure Line where
  localHost : List Nat
  localTime : Int
  remoteHost : List Nat
  remoteTime : Int
  deriving DecidableEq, Repr

/-- Everything one process can observe or change outside its own
variables. `sendFails n` tells whether the `n`-th call of `send` returns
`-1`; `clock n` is the `(tv_sec, tv_nsec)` or `(tv_sec, tv_usec)` pair the
`n`-th call of `timer` reads; `hostbuf` is what `gethostname` leaves in
the buffer. -/
structure World where
  inbox : List Event
  recvs : Nat
  outbox : List (List Nat)
  sendFails : Nat → Bool
  sends : Nat
  clock : Nat → Int × Int
  timers : Nat
  hostbuf : List Nat
  stderr : List Diag
  stdout : List Line

/-- How a call ends: it returns, the process leaves through `exit`, or
the loop is still running when the fuel is used up. -/
inductive Outcome (α : Type) where
  | returned (a : α) (w : World)
  | exited (status : Int) (w : World)
  | diverged

/-- The function `timerabs`: `seconds * RST_CLOCK_RESOLUTION + precision` computed in
`timestamp_t`. -/
def timerabs (abi : Abi) (a : Int × Int) : Int :=
  let seconds := wrapTs abi a.1
  let precision := wrapTs abi a.2
  wrapTs abi (wrapTs abi (seconds * abi.resolution) + precision)

/-- The value the `n`-th call of `timer` returns in world `w`. -/
def timerAt (abi : Abi) (w : World) (n : Nat) : Int := timerabs abi (w.clock n)

/-- The function `timer`: read the clock once. -/
def timer (abi : Abi) (w : World) : Int × World :=
  (timerAt abi w w.timers, { w with timers := w.timers + 1 })

/-- The call `send(socket, bytes, len, 0)`: `-1` on failure, otherwise all
bytes are queued and their number is returned. -/
def send (w : World) (bytes : List Nat) : Int × World :=
  if w.sendFails w.sends then (-1, { w with sends := w.sends + 1 })
  else ((bytes.length : Int),
        { w with sends := w.sends + 1, outbox := w.outbox ++ [bytes] })

/-- The call `recv(socket, buffer, size, 0)`: returns `-1` on an error, `0` once
the peer has closed, and otherwise hands over the next segment, or its
first `size` bytes when it is longer than the request. -/
def recv (w : World) (mem : Mem) (buffer size : Int) : Int × World × Mem :=
  match w.inbox with
  | [] => (0, { w with recvs := w.recvs + 1 }, mem)
  | Event.error :: rest => (-1, { w with inbox := rest, recvs := w.recvs + 1 }, mem)
  | Event.data bs :: rest =>
    if bs.length ≤ sizeT size then
      ((bs.length : Int), { w with inbox := rest, recvs := w.recvs + 1 },
        memWrite mem buffer bs)
    else
      ((sizeT size : Int),
        { w with inbox := Event.data (bs.drop (sizeT size)) :: rest, recvs := w.recvs + 1 },
        memWrite mem buffer (bs.take (sizeT size)))

/-! ## `receive_data` -/

/-- The variables of the loop in `receive_data`. -/
structure RState where
  received : Int
  buffer : Int
  size : Int
  deriving DecidableEq, Repr

/-- One execution of the loop body of `receive_data`. -/
def receive_body (w : World) (mem : Mem) (st : RState) : World × Mem × RState :=
  let r := recv w mem st.buffer st.size
  let received := r.1
  if received < st.size then
    ({ r.2.1 with stderr := r.2.1.stderr ++ [Diag.shortRead received st.size] },
      r.2.2,
      { received := 0, buffer := st.buffer + received, size := st.size - received })
  else
    (r.2.1, r.2.2, { st with received := received })

/-- The loop `while (received != size) { ... }`. -/
def receive_loop : Nat → World → Mem → RState → Outcome Mem
  | 0, w, mem, st => if st.received ≠ st.size then Outcome.diverged else Outcome.returned mem w
  | fuel + 1, w, mem, st =>
    if st.received ≠ st.size then
      let n := receive_body w mem st
      receive_loop fuel n.1 n.2.1 n.2.2
    else Outcome.returned mem w

/-- The function `receive_data(socket, buffer, size)`: the loop started with
`received = 0`. -/
def receive_data (fuel : Nat) (w : World) (mem : Mem) (buffer size : Int) : Outcome Mem :=
  receive_loop fuel w mem { received := 0, buffer := buffer, size := size }

/-! ## The master engine -/

/-- The function `ping_wait_pong`: one round. Returns the values stored
through `local`, `remote` and `delta`, in this order. The variable
`tremote` is the memory handed to `receive_data`, and `t0` is kept as a
value: the round of the program as long as no `recv` returns `-1`. -/
def ping_wait_pong (abi : Abi) (fuel : Nat) (w : World) : Outcome (Int × Int × Int) :=
  let t := timer abi w
  let t0 := t.1
  let s := send t.2 (encodeTs abi t0)
  if s.1 = -1 then
    Outcome.exited 1 { s.2 with stderr := s.2.stderr ++ [Diag.pingSendFailed] }
  else
    match receive_data fuel s.2 zeroMem 0 8 with
    | Outcome.returned m w1 =>
      let tremote := decodeTs abi (memRead m 0 8)
      let u := timer abi w1
      let t1 := u.1
      let delta := wrapTs abi (t1 - t0)
      let loc := wrapTs abi (t0 + Int.tdiv delta 2)
      Outcome.returned (loc, tremote, delta) u.2
    | Outcome.exited c w1 => Outcome.exited c w1
    | Outcome.diverged => Outcome.diverged

/-- The variables `pings` updates from round to round: `mdelta` and the
two output cells `*local_time`, `*remote_time`. -/
structure Best where
  mdelta : Int
  local_time : Int
  remote_time : Int
  deriving DecidableEq, Repr

/-- The body of the `for` loop of `pings` after `ping_wait_pong` has
returned `(local, remote, delta)`. -/
def keep_best (b : Best) (s : Int × Int × Int) : Best :=
  if s.2.2 ≤ b.mdelta then { mdelta := s.2.2, local_time := s.1, remote_time := s.2.1 }
  else b

/-- The loop `for (i = 0; i < sample_size; i++)`, with the number of
iterations still to run as first argument. -/
def pings_loop (abi : Abi) (fuel : Nat) : Nat → World → Best → Outcome Best
  | 0, w, b => Outcome.returned b w
  | n + 1, w, b =>
    match ping_wait_pong abi fuel w with
    | Outcome.returned s w1 => pings_loop abi fuel n w1 (keep_best b s)
    | Outcome.exited c w1 => Outcome.exited c w1
    | Outcome.diverged => Outcome.diverged

/-- First part of `pings`: receive the remote host name into
`remote_hostname` and terminate it. -/
def pings_hostname (abi : Abi) (fuel : Nat) (w : World) (mem : Mem)
    (remote_hostname : Int) : Outcome Mem :=
  match receive_data fuel w zeroMem 0 4 with
  | Outcome.returned m1 w1 =>
    let remotenamelen := decodeInt abi (memRead m1 0 4)
    match receive_data fuel w1 mem remote_hostname remotenamelen with
    | Outcome.returned m2 w2 =>
      Outcome.returned (memStore m2 (remote_hostname + remotenamelen) 0) w2
    | Outcome.exited c w2 => Outcome.exited c w2
    | Outcome.diverged => Outcome.diverged
  | Outcome.exited c w1 => Outcome.exited c w1
  | Outcome.diverged => Outcome.diverged

/-- The function `pings(sample_size, remote_hostname, remote_socket, local_time,
remote_time)`. The last two arguments are the values the output cells
hold on entry; the result carries the memory holding the host name and
the values of the two cells on return. -/
def pings (abi : Abi) (fuel : Nat) (sample_size : Int) (w : World) (mem : Mem)
    (remote_hostname : Int) (local_time remote_time : Int) : Outcome (Mem × Int × Int) :=
  match pings_hostname abi fuel w mem remote_hostname with
  | Outcome.returned m w1 =>
    match pings_loop abi fuel sample_size.toNat w1
        { mdelta := wrapTs abi 1000000000, local_time := local_time,
          remote_time := remote_time } with
    | Outcome.returned b w2 =>
      let termination : Int := 0
      let s := send w2 (encodeTs abi termination)
      Outcome.returned (m, b.local_time, b.remote_time) s.2
    | Outcome.exited c w2 => Outcome.exited c w2
    | Outcome.diverged => Outcome.diverged
  | Outcome.exited c w1 => Outcome.exited c w1
  | Outcome.diverged => Outcome.diverged

/-- The function `master(arg, remote_host)` from the point where the slave has
connected (`open_connection`, `exec_slave` and `wait_connection` are the
world `w` it starts in): run `pings` on the accepted socket and print
the result line. `mem` holds the string `remote_host` points to;
`arg->master_host` is this host's name as `gethostname` gives it; `%s`
reads at most `fuel` bytes. -/
def master (abi : Abi) (fuel : Nat) (sample_size : Int) (w : World) (mem : Mem)
    (remote_host : Int) : Outcome Mem :=
  let local_time : Int := 0
  let remote_time : Int := 0
  match pings abi fuel sample_size w mem remote_host local_time remote_time with
  | Outcome.returned r w1 =>
    Outcome.returned r.1
      { w1 with stdout := w1.stdout ++
          [{ localHost := w1.hostbuf.take (strlen w1.hostbuf),
             localTime := toSigned 64 r.2.1,
             remoteHost := cstring r.1 fuel remote_host,
             remoteTime := toSigned 64 r.2.2 }] }
  | Outcome.exited c w1 => Outcome.exited c w1
  | Outcome.diverged => Outcome.diverged

/-! ## The slave engine -/

/-- First part of `pongs`: announce this host's name. The results of the
two calls of `send` are not looked at. -/
def pongs_hostname (abi : Abi) (w : World) : World :=
  let namesize := wrapInt (strlen w.hostbuf)
  let s1 := send w (encodeInt abi namesize)
  let s2 := send s1.2 (w.hostbuf.take (sizeT namesize))
  s2.2

/-- The loop `do { ... } while (tremote != 0)` of `pongs`; `mem` holds
the variable `tremote` at address `0`. -/
def pongs_loop (abi : Abi) (rfuel : Nat) : Nat → World → Mem → Outcome Unit
  | 0, _, _ => Outcome.diverged
  | fuel + 1, w, mem =>
    match receive_data rfuel w mem 0 8 with
    | Outcome.returned m1 w1 =>
      let tremote := decodeTs abi (memRead m1 0 8)
      let t := timer abi w1
      let tlocal := t.1
      let s := send t.2 (encodeTs abi tlocal)
      if s.1 = -1 then
        Outcome.exited 1 { s.2 with stderr := s.2.stderr ++ [Diag.pongSendFailed] }
      else if tremote ≠ 0 then pongs_loop abi rfuel fuel s.2 m1
      else Outcome.returned () s.2
    | Outcome.exited c w1 => Outcome.exited c w1
    | Outcome.diverged => Outcome.diverged

/-- The function `pongs(socket)`: the announce, then the serving loop with
`tremote` in fresh memory. -/
def pongs (abi : Abi) (fuel : Nat) (w : World) : Outcome Unit :=
  pongs_loop abi fuel fuel (pongs_hostname abi w) zeroMem

/-! ## Vocabulary for the statements: transports, rounds, sessions -/

/-- Every event is a non-empty data segment. -/
def Event.isChunk : Event → Bool
  | Event.data bs => !bs.isEmpty
  | Event.error => false

/-- A transport that delivers: each `recv` hands over at least one byte. -/
def Good (l : List Event) : Prop := ∀ e ∈ l, e.isChunk = true

instance (l : List Event) : Decidable (Good l) := by
  unfold Good; infer_instance

/-- The bytes a list of events carries, in order. -/
def stream : List Event → List Nat
  | [] => []
  | Event.data bs :: rest => bs ++ stream rest
  | Event.error :: rest => stream rest

/-- The world after `receive_data` has made `k` calls of `recv`, left
`inbox` unread and written `log` to `stderr`. -/
def World.afterRecv (w : World) (inbox : List Event) (k : Nat) (log : List Diag) : World :=
  { w with inbox := inbox, recvs := w.recvs + k, stderr := w.stderr ++ log }

/-- The triple `(local, remote, delta)` that `ping_wait_pong` computes
from its two clock readings and the timestamp it received. -/
def sample (abi : Abi) (t0 t1 tremote : Int) : Int × Int × Int :=
  (wrapTs abi (t0 + Int.tdiv (wrapTs abi (t1 - t0)) 2), tremote, wrapTs abi (t1 - t0))

/-- The world after one successful round that started in `w`: two clock
readings, one `send`, and a receive that made `k` calls of `recv`. -/
def World.afterRound (abi : Abi) (w : World) (inbox : List Event) (k : Nat)
    (log : List Diag) : World :=
  { w with inbox := inbox, recvs := w.recvs + k, stderr := w.stderr ++ log,
           timers := w.timers + 2, sends := w.sends + 1,
           outbox := w.outbox ++ [encodeTs abi (timerAt abi w w.timers)] }

/-- The world after the slave has served one frame starting in `w`: a
receive that made `k` calls of `recv`, one clock reading, and the reply
sent. -/
def World.afterReply (abi : Abi) (w : World) (inbox : List Event) (k : Nat)
    (log : List Diag) : World :=
  { w with inbox := inbox, recvs := w.recvs + k, stderr := w.stderr ++ log,
           timers := w.timers + 1, sends := w.sends + 1,
           outbox := w.outbox ++ [encodeTs abi (timerAt abi w w.timers)] }

/-- The replies to `n` frames when the first of them is answered with
the reading of clock call number `start`: one reading per frame, in
order. -/
def replies (abi : Abi) (w : World) : Nat → Nat → List (List Nat)
  | _, 0 => []
  | start, n + 1 => encodeTs abi (timerAt abi w start) :: replies abi w (start + 1) n

/-- One round as the master observes it: the clock reading `t0` taken
before the ping is sent, the round-trip duration `d` (the reading taken
after the reply is `t0 + d`), and the timestamp `r` carried by the
reply. -/
structure Round where
  t0 : Int
  d : Int
  r : Int
  deriving DecidableEq, Repr

/-- The clock of world `w`, read from call number `n` on, shows the send
and receive times of the given rounds. -/
def clockShows (abi : Abi) (w : World) : Nat → List Round → Prop
  | _, [] => True
  | n, x :: xs =>
    timerAt abi w n = x.t0 ∧ timerAt abi w (n + 1) = x.t0 + x.d ∧ clockShows abi w (n + 2) xs

instance (abi : Abi) (w : World) (n : Nat) (xs : List Round) :
    Decidable (clockShows abi w n xs) := by
  induction xs generalizing n with
  | nil => unfold clockShows; infer_instance
  | cons x xs ih => unfold clockShows; exact instDecidableAnd

/-- What `ping_wait_pong` returns for a round. -/
def Round.sample (abi : Abi) (x : Round) : Int × Int × Int :=
  Timesync.sample abi x.t0 (x.t0 + x.d) x.r

/-- The state of `mdelta`, `*local_time`, `*remote_time` after the given
rounds, starting from `b`. -/
def bestAfter (abi : Abi) (b : Best) (rounds : List Round) : Best :=
  rounds.foldl (fun b x => keep_best b (x.sample abi)) b

/-- The lines on `stdout` when the call has ended; `none` while it is
still running. -/
def Outcome.printed {α : Type} : Outcome α → Option (List Line)
  | Outcome.returned _ w => some w.stdout
  | Outcome.exited _ w => some w.stdout
  | Outcome.diverged => none

/-- The values of `*local_time` and `*remote_time` when `pings` has
returned. -/
def Outcome.times : Outcome (Mem × Int × Int) → Option (Int × Int)
  | Outcome.returned r _ => some r.2
  | Outcome.exited _ _ => none
  | Outcome.diverged => none

/-- The exit status, when the process left through `exit`. -/
def Outcome.status {α : Type} : Outcome α → Option Int
  | Outcome.returned _ _ => none
  | Outcome.exited c _ => some c
  | Outcome.diverged => none

/-- The world in which the call ended, by `return` or by `exit`. -/
def Outcome.final {α : Type} : Outcome α → Option World
  | Outcome.returned _ w => some w
  | Outcome.exited _ w => some w
  | Outcome.diverged => none

/-- The messages sent, in order, by a call that has returned. -/
def Outcome.sent {α : Type} : Outcome α → Option (List (List Nat))
  | Outcome.returned _ w => some w.outbox
  | Outcome.exited _ _ => none
  | Outcome.diverged => none

/-- The bytes still unread on the socket when the call has returned. -/
def Outcome.unread {α : Type} : Outcome α → Option (List Nat)
  | Outcome.returned _ w => some (stream w.inbox)
  | Outcome.exited _ _ => none
  | Outcome.diverged => none

/-- A completed session of the master engine in world `wm` with the slave
engine in world `ws`, joined by one connection: `pings` returns having
sent the messages `mout`, `pongs` returns having sent the messages
`sout`, and each side's socket delivers, in some segmentation, exactly
the bytes the other side sent. -/
def Session (abi : Abi) (fuel : Nat) (sample_size : Int) (wm ws : World) (mem : Mem)
    (host : Int) (mout sout : List (List Nat)) : Prop :=
  (pings abi fuel sample_size wm mem host 0 0).sent = some mout ∧
  (pongs abi fuel ws).sent = some sout ∧
  Good wm.inbox ∧ stream wm.inbox = sout.flatten ∧
  Good ws.inbox ∧ stream ws.inbox = mout.flatten

instance (abi : Abi) (fuel : Nat) (sample_size : Int) (wm ws : World) (mem : Mem)
    (host : Int) (mout sout : List (List Nat)) :
    Decidable (Session abi fuel sample_size wm ws mem host mout sout) := by
  unfold Session; infer_instance

/-! ## Concrete worlds used in the examples -/

/-- An Abi for the examples: unsigned `timestamp_t`, little-endian,
microsecond resolution. -/
def exampleAbi : Abi := { signedTs := false, bigEndian := false, resolution := 1000000 }

/-- A socket that hands over four bytes one at a time. -/
def oneByteWorld : World :=
  { inbox := [Event.data [7], Event.data [8], Event.data [9], Event.data [10]],
    recvs := 0, outbox := [], sendFails := fun _ => false, sends := 0,
    clock := fun _ => (0, 0), timers := 0, hostbuf := [], stderr := [], stdout := [] }

/-- A socket on which two calls of `recv` return `0` before the peer is
seen to have closed. -/
def closedWorld : World :=
  { inbox := [Event.data [], Event.data []],
    recvs := 0, outbox := [], sendFails := fun _ => false, sends := 0,
    clock := fun _ => (0, 0), timers := 0, hostbuf := [], stderr := [], stdout := [] }

/-- A master-side world for one round: the clock reads 100 and then 140,
and the reply `777` arrives in two segments followed by one more byte. -/
def oneRoundWorld : World :=
  { inbox := [Event.data [9, 3, 0], Event.data [0, 0, 0, 0, 0, 55]],
    recvs := 0, outbox := [], sendFails := fun _ => false, sends := 0,
    clock := fun n => (0, [100, 140].getD n 0), timers := 0, hostbuf := [],
    stderr := [], stdout := [] }

/-- The rounds of scenario A: send times 100..500, round-trip durations
40, 10, 25, 10, 50, and a slave whose clock always reads 777. -/
def scenarioA : List Round :=
  [⟨100, 40, 777⟩, ⟨200, 10, 777⟩, ⟨300, 25, 777⟩, ⟨400, 10, 777⟩, ⟨500, 50, 777⟩]

/-- The master's world in scenario A: the slave `hi` announces itself,
and its five replies arrive in segments that ignore frame boundaries. -/
def scenarioAWorld : World :=
  { inbox := [Event.data [2, 0, 0], Event.data [0, 104, 105, 9, 3],
              Event.data [0, 0, 0, 0, 0, 0, 9, 3, 0, 0, 0, 0, 0, 0],
              Event.data [9, 3, 0, 0, 0, 0, 0, 0, 9, 3, 0, 0, 0, 0, 0, 0, 9],
              Event.data [3, 0, 0, 0, 0, 0, 0]],
    recvs := 0, outbox := [], sendFails := fun _ => false, sends := 0,
    clock := fun n => (0, [100, 140, 200, 210, 300, 325, 400, 410, 500, 550].getD n 0),
    timers := 0, hostbuf := [109, 0], stderr := [], stdout := [] }

/-- The master's world for a single round that takes 2,000,000,000 clock
units: the clock reads 100 before the send and 2,000,000,100 after the
reply 777 has arrived. -/
def slowWorld : World :=
  { inbox := [Event.data [2, 0, 0, 0, 104, 105], Event.data [9, 3, 0, 0, 0, 0, 0, 0]],
    recvs := 0, outbox := [], sendFails := fun _ => false, sends := 0,
    clock := fun n => (0, [100, 2000000100].getD n 0),
    timers := 0, hostbuf := [109, 0], stderr := [], stdout := [] }

/-- A master-side world with the given events on the socket, a clock
reading 100, 101, 102, ... and every `send` succeeding. -/
def masterWorld (inbox : List Event) : World :=
  { inbox := inbox, recvs := 0, outbox := [], sendFails := fun _ => false, sends := 0,
    clock := fun n => (0, 100 + (n : Int)), timers := 0, hostbuf := [109, 0],
    stderr := [], stdout := [] }

/-- The master's world for one round with the slave `hi` whose reply is
777, in which the second `send` of the process, the terminate frame,
fails. -/
def terminateFailsWorld : World :=
  { masterWorld [Event.data [2, 0, 0, 0, 104, 105], Event.data [9, 3, 0, 0, 0, 0, 0, 0]] with
    sendFails := fun n => n == 1 }

/-- The master's world for one round in which the first `recv` for the
reply returns `-1`, after which the reply 777 and one more byte arrive
together. -/
def recvErrorWorld : World :=
  masterWorld [Event.data [2, 0, 0, 0, 104, 105], Event.error,
    Event.data [9, 3, 0, 0, 0, 0, 0, 0, 0]]

/-- The master's world for one round in which the first `send` of the
process, the ping, fails. -/
def pingFailsWorld : World :=
  { masterWorld [Event.data [2, 0, 0, 0, 104, 105], Event.data [9, 3, 0, 0, 0, 0, 0, 0]] with
    sendFails := fun n => n == 0 }

/-- A slave-side world: host name `hi`, a clock reading 50, 51, 52, ...,
every `send` succeeding, and the given events on the socket. -/
def slaveWorld (inbox : List Event) : World :=
  { inbox := inbox, recvs := 0, outbox := [], sendFails := fun _ => false, sends := 0,
    clock := fun n => (0, 50 + (n : Int)), timers := 0, hostbuf := [104, 105, 0, 0],
    stderr := [], stdout := [] }

/-- The slave-side world `slaveWorld inbox` in which the first reply (the
third `send` of the process) fails. -/
def slaveWorldSendFails (inbox : List Event) : World :=
  { slaveWorld inbox with sendFails := fun n => n == 2 }

/-- A slave-side world whose `gethostname` buffer is the given one. -/
def slaveNamed (hostbuf : List Nat) : World :=
  { slaveWorld [] with hostbuf := hostbuf }

/-- The slave's side of the one-round session of the examples: it
receives the ping 100 and the terminate frame. -/
def sessionSlave : World :=
  slaveWorld [Event.data [100, 0, 0, 0, 0, 0, 0, 0], Event.data [0, 0, 0, 0, 0, 0, 0, 0]]

/-- The master's side of that session: it receives the announce of host
`hi` and the slave's replies 50 and 51. -/
def sessionMaster : World :=
  masterWorld [Event.data [2, 0, 0, 0], Event.data [104, 105],
    Event.data [50, 0, 0, 0, 0, 0, 0, 0], Event.data [51, 0, 0, 0, 0, 0, 0, 0]]

/-! # Properties -/

/-! ## Memory -/

theorem memWrite_append (m : Mem) (a : Int) (p q : List Nat) :
    memWrite m a (p ++ q) = memWrite (memWrite m a p) (a + (p.length : Int)) q := by
  induction p generalizing m a with
  | nil => simp [memWrite]
  | cons b p ih =>
    simp only [List.cons_append, memWrite, List.length_cons, List.append_eq]
    rw [ih]
    have e : a + 1 + (p.length : Int) = a + ((p.length + 1 : Nat) : Int) := by
      push_cast; ring
    rw [e]

theorem memWrite_below (m : Mem) (a : Int) (bs : List Nat) (x : Int) (hx : x < a) :
    memWrite m a bs x = m x := by
  induction bs generalizing m a with
  | nil => rfl
  | cons b bs ih =>
    simp only [memWrite]
    rw [ih _ _ (by omega)]
    simp [memStore]
    intro h; omega

theorem memWrite_above (m : Mem) (a : Int) (bs : List Nat) (x : Int)
    (hx : a + (bs.length : Int) ≤ x) : memWrite m a bs x = m x := by
  induction bs generalizing m a with
  | nil => rfl
  | cons b bs ih =>
    simp only [memWrite]
    simp only [List.length_cons] at hx
    push_cast at hx
    rw [ih _ _ (by omega)]
    simp [memStore]
    intro h; omega

theorem memWrite_get (m : Mem) (a : Int) (bs : List Nat) (i : Nat) (hi : i < bs.length) :
    memWrite m a bs (a + (i : Int)) = bs.get ⟨i, hi⟩ := by
  induction bs generalizing m a i with
  | nil => simp at hi
  | cons b bs ih =>
    simp only [memWrite]
    cases i with
    | zero =>
      rw [memWrite_below _ _ _ _ (by simp)]
      simp [memStore]
    | succ j =>
      have hj : j < bs.length := by simpa using hi
      have := ih (memStore m a b) (a + 1) j hj
      have e : a + ((j + 1 : Nat) : Int) = a + 1 + (j : Int) := by push_cast; ring
      rw [e, this]
      simp

theorem memRead_memWrite (m : Mem) (a : Int) (bs : List Nat) :
    memRead (memWrite m a bs) a bs.length = bs := by
  apply List.ext_get
  · simp [memRead]
  · intro i h1 h2
    simp only [memRead, List.get_eq_getElem, List.getElem_map, List.getElem_range]
    have := memWrite_get m a bs i h2
    simpa using this

theorem memRead_memStore_outside (m : Mem) (a host : Int) (b n : Nat)
    (h : a < host ∨ host + (n : Int) ≤ a) :
    memRead (memStore m a b) host n = memRead m host n := by
  unfold memRead
  apply List.map_congr_left
  intro i hi
  have hi' : i < n := List.mem_range.mp hi
  have : host + (i : Int) ≠ a := by omega
  simp [memStore, this]

theorem cstring_stored (bs : List Nat) :
    ∀ (mem : Mem) (a : Int) (n : Nat), bs.length < n → (∀ b ∈ bs, b ≠ 0) →
      cstring (memStore (memWrite mem a bs) (a + (bs.length : Int)) 0) n a = bs := by
  induction bs with
  | nil =>
    intro mem a n hn _
    obtain ⟨m, rfl⟩ : ∃ m, n = m + 1 := ⟨n - 1, by simp at hn; omega⟩
    simp [cstring, memStore, memWrite]
  | cons b bs ih =>
    intro mem a n hn hb
    obtain ⟨m, rfl⟩ : ∃ m, n = m + 1 := ⟨n - 1, by omega⟩
    have hb0 : b ≠ 0 := hb b (by simp)
    have haddr : a + (((b :: bs).length : Nat) : Int) = a + 1 + (bs.length : Int) := by
      simp only [List.length_cons]; push_cast; ring
    rw [haddr]
    have hval : memStore (memWrite mem a (b :: bs)) (a + 1 + (bs.length : Int)) 0 a = b := by
      have hne : a ≠ a + 1 + (bs.length : Int) := by omega
      simp only [memStore, hne, if_false, memWrite]
      rw [memWrite_below _ _ _ _ (by omega)]
      simp [memStore]
    simp only [cstring, hval, hb0, if_false]
    congr 1
    have := ih (memStore mem a b) (a + 1) m (by simp at hn; omega)
      (fun c hc => hb c (by simp [hc]))
    simpa [memWrite] using this

/-! ## Integers on the wire -/

theorem leBytes_length (n v : Nat) : (leBytes n v).length = n := by
  induction n generalizing v with
  | zero => rfl
  | succ n ih => simp [leBytes, ih]

theorem leValue_leBytes (n v : Nat) : leValue (leBytes n v) = v % 256 ^ n := by
  induction n generalizing v with
  | zero => simp [leBytes, leValue, Nat.mod_one]
  | succ n ih =>
    simp only [leBytes, leValue, ih]
    rw [pow_succ, Nat.mul_comm (256 ^ n) 256, Nat.mod_mul]

theorem objBytes_length (abi : Abi) (n : Nat) (v : Int) : (objBytes abi n v).length = n := by
  unfold objBytes
  by_cases h : abi.bigEndian <;> simp [h, leBytes_length]

theorem objValue_objBytes (abi : Abi) (n : Nat) (v : Int) :
    (objValue abi (objBytes abi n v) : Int) = v % 2 ^ (8 * n) := by
  have hpos : (0 : Int) < 2 ^ (8 * n) := by positivity
  have h0 : 0 ≤ v % 2 ^ (8 * n) := Int.emod_nonneg _ (ne_of_gt hpos)
  have hlt : v % 2 ^ (8 * n) < 2 ^ (8 * n) := Int.emod_lt_of_pos _ hpos
  have hv : leValue (leBytes n (v % 2 ^ (8 * n)).toNat) = (v % 2 ^ (8 * n)).toNat := by
    rw [leValue_leBytes]
    apply Nat.mod_eq_of_lt
    have : (256 : Nat) ^ n = 2 ^ (8 * n) := by
      rw [pow_mul]; norm_num
    rw [this]
    have : ((v % 2 ^ (8 * n)).toNat : Int) < ((2 ^ (8 * n) : Nat) : Int) := by
      rw [Int.toNat_of_nonneg h0]; push_cast; exact hlt
    exact_mod_cast this
  unfold objValue objBytes
  by_cases h : abi.bigEndian
  · simp only [h, if_true, List.reverse_reverse, hv]
    exact Int.toNat_of_nonneg h0
  · simp only [h, if_false, hv]
    simp only [Bool.false_eq_true, if_false, hv]
    exact Int.toNat_of_nonneg h0

theorem encodeTs_length (abi : Abi) (v : Int) : (encodeTs abi v).length = 8 :=
  objBytes_length abi 8 v

theorem encodeInt_length (abi : Abi) (v : Int) : (encodeInt abi v).length = 4 :=
  objBytes_length abi 4 v

theorem wrapTs_inRange (abi : Abi) (v : Int) : InRangeTs abi (wrapTs abi v) := by
  unfold InRangeTs wrapTs toSigned
  by_cases h : abi.signedTs
  · simp only [h, if_true]
    norm_num
    omega
  · simp only [h, if_false]
    simp only [Bool.false_eq_true, if_false]
    omega

theorem wrapTs_of_inRange (abi : Abi) (v : Int) (h : InRangeTs abi v) : wrapTs abi v = v := by
  unfold InRangeTs at h
  unfold wrapTs toSigned
  by_cases hs : abi.signedTs
  · simp only [hs, if_true] at h ⊢
    norm_num at h ⊢
    omega
  · simp only [hs, if_false] at h ⊢
    simp only [Bool.false_eq_true, if_false] at h ⊢
    omega

theorem wrapTs_emod (abi : Abi) (v : Int) : wrapTs abi (v % 2 ^ 64) = wrapTs abi v := by
  unfold wrapTs toSigned
  by_cases hs : abi.signedTs
  · simp only [hs, if_true]
    norm_num
  · simp only [hs, if_false]
    simp only [Bool.false_eq_true, if_false]
    omega

theorem decodeTs_encodeTs (abi : Abi) (v : Int) : decodeTs abi (encodeTs abi v) = wrapTs abi v := by
  unfold decodeTs encodeTs
  rw [objValue_objBytes]
  exact wrapTs_emod abi v

theorem decodeInt_encodeInt (abi : Abi) (v : Int) (h0 : -(2 ^ 31) ≤ v) (h1 : v < 2 ^ 31) :
    decodeInt abi (encodeInt abi v) = v := by
  unfold decodeInt encodeInt wrapInt
  rw [objValue_objBytes]
  unfold toSigned
  norm_num at h0 h1 ⊢
  omega

theorem wrapTs_zero (abi : Abi) : wrapTs abi 0 = 0 :=
  wrapTs_of_inRange abi 0 (by unfold InRangeTs; split <;> norm_num)

theorem wrapTs_billion (abi : Abi) : wrapTs abi 1000000000 = 1000000000 :=
  wrapTs_of_inRange abi _ (by unfold InRangeTs; split <;> norm_num)

theorem toSigned_zero : toSigned 64 0 = 0 := by decide

theorem sizeT_natCast (n : Nat) (h : n < 2 ^ 31) : sizeT (n : Int) = n := by
  unfold sizeT
  have h1 : ((n : Int)) % 2 ^ 64 = n := by
    apply Int.emod_eq_of_lt <;> omega
  rw [h1]; simp

theorem inRangeTs_between (abi : Abi) (a b x : Int) (ha : InRangeTs abi a)
    (hb : InRangeTs abi b) (h1 : a ≤ x) (h2 : x ≤ b) : InRangeTs abi x := by
  unfold InRangeTs at *
  by_cases hs : abi.signedTs
  · simp only [hs, if_true] at *
    omega
  · simp only [hs, if_false] at *
    simp only [Bool.false_eq_true, if_false] at *
    omega

theorem timerAt_inRange (abi : Abi) (w : World) (n : Nat) : InRangeTs abi (timerAt abi w n) :=
  wrapTs_inRange abi _

theorem strlen_terminated (h junk : List Nat) (hnz : ∀ b ∈ h, b ≠ 0) :
    strlen (h ++ 0 :: junk) = h.length := by
  unfold strlen
  induction h with
  | nil => simp
  | cons b bs ih =>
    have hb : b ≠ 0 := hnz b (by simp)
    simp only [List.cons_append, List.takeWhile_cons, bne_iff_ne, ne_eq, hb,
      not_false_eq_true, decide_True, if_true, List.length_cons]
    rw [ih (fun c hc => hnz c (by simp [hc]))]

/-! ## `receive_data` on a transport that delivers -/

theorem receive_loop_done (fuel : Nat) (w : World) (mem : Mem) (st : RState)
    (h : st.received = st.size) : receive_loop fuel w mem st = Outcome.returned mem w := by
  cases fuel <;> simp [receive_loop, h]

theorem afterRecv_id (w : World) : w.afterRecv w.inbox 0 [] = w := by
  cases w; simp [World.afterRecv]

theorem afterRecv_afterRecv (w : World) (i1 i2 : List Event) (k1 k2 : Nat)
    (l1 l2 : List Diag) :
    (w.afterRecv i1 k1 l1).afterRecv i2 k2 l2 = w.afterRecv i2 (k1 + k2) (l1 ++ l2) := by
  simp [World.afterRecv, Nat.add_assoc]

theorem good_cons {e : Event} {l : List Event} (h : Good (e :: l)) :
    e.isChunk = true ∧ Good l := by
  constructor
  · exact h e (by simp)
  · intro x hx; exact h x (by simp [hx])

theorem recv_fits (w : World) (mem : Mem) (buffer size : Int) (bs : List Nat)
    (tl : List Event) (hw : w.inbox = Event.data bs :: tl) (h : bs.length ≤ sizeT size) :
    recv w mem buffer size =
      ((bs.length : Int), { w with inbox := tl, recvs := w.recvs + 1 },
        memWrite mem buffer bs) := by
  simp [recv, hw, h]

theorem recv_clamped (w : World) (mem : Mem) (buffer size : Int) (bs : List Nat)
    (tl : List Event) (hw : w.inbox = Event.data bs :: tl) (h : ¬ bs.length ≤ sizeT size) :
    recv w mem buffer size =
      ((sizeT size : Int),
        { w with inbox := Event.data (bs.drop (sizeT size)) :: tl, recvs := w.recvs + 1 },
        memWrite mem buffer (bs.take (sizeT size))) := by
  simp [recv, hw, h]

theorem receive_body_short (w : World) (mem : Mem) (st : RState) (r : Int) (w1 : World)
    (m1 : Mem) (h : recv w mem st.buffer st.size = (r, w1, m1)) (hlt : r < st.size) :
    receive_body w mem st =
      ({ w1 with stderr := w1.stderr ++ [Diag.shortRead r st.size] }, m1,
        { received := 0, buffer := st.buffer + r, size := st.size - r }) := by
  simp [receive_body, h, hlt]

theorem receive_body_full (w : World) (mem : Mem) (st : RState) (r : Int) (w1 : World)
    (m1 : Mem) (h : recv w mem st.buffer st.size = (r, w1, m1)) (hge : ¬ r < st.size) :
    receive_body w mem st = (w1, m1, { st with received := r }) := by
  simp [receive_body, h, hge]

theorem receive_loop_step (fuel : Nat) (w : World) (mem : Mem) (st : RState)
    (h : st.received ≠ st.size) :
    receive_loop (fuel + 1) w mem st =
      receive_loop fuel (receive_body w mem st).1 (receive_body w mem st).2.1
        (receive_body w mem st).2.2 := by
  simp [receive_loop, h]

theorem receive_loop_good (inbox : List Event) :
    ∀ (payload rest : List Nat) (w : World) (mem : Mem) (buffer : Int) (fuel : Nat),
      w.inbox = inbox → Good inbox → stream inbox = payload ++ rest →
      payload.length ≤ fuel → payload.length < 2 ^ 31 →
      ∃ inbox' k log,
        receive_loop fuel w mem
            { received := 0, buffer := buffer, size := (payload.length : Int) } =
          Outcome.returned (memWrite mem buffer payload) (w.afterRecv inbox' k log) ∧
        Good inbox' ∧ stream inbox' = rest ∧ k ≤ payload.length ∧
        (payload ≠ [] → 1 ≤ k) := by
  induction inbox with
  | nil =>
    intro payload rest w mem buffer fuel hw _ hs _ _
    have hp : payload = [] := by
      simp only [stream] at hs
      have := congrArg List.length hs
      simp at this
      exact List.eq_nil_of_length_eq_zero (by omega)
    subst hp
    refine ⟨[], 0, [], ?_, by intro e he; simp at he, ?_, le_refl _, by simp⟩
    · rw [receive_loop_done _ _ _ _ (by simp), ← hw, afterRecv_id]; rfl
    · simpa [stream] using hs
  | cons e tl ih =>
    intro payload rest w mem buffer fuel hw hg hs hf hlen
    obtain ⟨he, hgt⟩ := good_cons hg
    cases e with
    | error => simp [Event.isChunk] at he
    | data bs =>
      have hbs : bs ≠ [] := by
        intro h; subst h; simp [Event.isChunk] at he
      have hbl : 0 < bs.length := List.length_pos.mpr hbs
      by_cases hp : payload = []
      · subst hp
        refine ⟨Event.data bs :: tl, 0, [], ?_, hg, ?_, le_refl _, by simp⟩
        · rw [receive_loop_done _ _ _ _ (by simp), ← hw, afterRecv_id]; rfl
        · simpa using hs
      · have hpl : 0 < payload.length := List.length_pos.mpr hp
        obtain ⟨f, rfl⟩ : ∃ f, fuel = f + 1 := ⟨fuel - 1, by omega⟩
        simp only [stream] at hs
        have hsz := sizeT_natCast payload.length hlen
        have hne : (0 : Int) ≠ (payload.length : Int) := by omega
        rw [receive_loop_step _ _ _ _ hne]
        by_cases hlt : bs.length < payload.length
        · -- a short read: the segment is a proper prefix of the payload
          have hsplit : ∃ a', payload = bs ++ a' ∧ stream tl = a' ++ rest := by
            rcases List.append_eq_append_iff.mp hs with ⟨a', ha, hb⟩ | ⟨c', hc, _⟩
            · exact ⟨a', ha, hb⟩
            · have hl := congrArg List.length hc
              rw [List.length_append] at hl; omega
          obtain ⟨a', ha, hb⟩ := hsplit
          have hal : a'.length + bs.length = payload.length := by rw [ha]; simp; omega
          have hrv := recv_fits w mem buffer (payload.length : Int) bs tl hw (by omega)
          have hbody := receive_body_short w mem
            { received := 0, buffer := buffer, size := (payload.length : Int) } _ _ _ hrv
            (by show (bs.length : Int) < (payload.length : Int); exact_mod_cast hlt)
          rw [hbody]
          have hsize : (payload.length : Int) - (bs.length : Int) = (a'.length : Int) := by
            omega
          simp only [hsize]
          obtain ⟨inbox', k, log, h1, h2, h3, h4, _⟩ := ih a' rest
              { w with inbox := tl, recvs := w.recvs + 1,
                       stderr := w.stderr ++ [Diag.shortRead bs.length payload.length] }
              (memWrite mem buffer bs) (buffer + bs.length) f rfl hgt hb
              (by omega) (by omega)
          refine ⟨inbox', k + 1, Diag.shortRead bs.length payload.length :: log,
              ?_, h2, h3, by omega, by intro _; omega⟩
          rw [h1, ha, memWrite_append]
          simp [World.afterRecv]
          omega
        · -- the read completes the payload
          have hsplit : ∃ c', bs = payload ++ c' ∧ rest = c' ++ stream tl := by
            rcases List.append_eq_append_iff.mp hs with ⟨a', ha, hb⟩ | ⟨c', hc, hd⟩
            · have : a' = [] := by
                have hl := congrArg List.length ha
                rw [List.length_append] at hl
                exact List.eq_nil_of_length_eq_zero (by omega)
              subst this
              refine ⟨[], by simpa using ha.symm, by simpa using hb.symm⟩
            · exact ⟨c', hc, hd⟩
          obtain ⟨c', hc, hd⟩ := hsplit
          by_cases hc' : c' = []
          · subst hc'
            simp at hc hd
            subst hc
            have hrv := recv_fits w mem buffer (bs.length : Int) bs tl hw (by omega)
            have hbody := receive_body_full w mem
              { received := 0, buffer := buffer, size := (bs.length : Int) } _ _ _ hrv
              (by simp)
            rw [hbody, receive_loop_done _ _ _ _ (by simp)]
            refine ⟨tl, 1, [], ?_, hgt, hd.symm, hpl, by intro _; exact le_refl _⟩
            simp [World.afterRecv]
          · have hcl : 0 < c'.length := List.length_pos.mpr hc'
            have hbl2 : bs.length = payload.length + c'.length := by rw [hc]; simp
            have hrv := recv_clamped w mem buffer (payload.length : Int) bs tl hw (by omega)
            rw [hsz] at hrv
            have hbody := receive_body_full w mem
              { received := 0, buffer := buffer, size := (payload.length : Int) } _ _ _ hrv
              (by simp)
            rw [hbody, receive_loop_done _ _ _ _ (by simp)]
            refine ⟨Event.data c' :: tl, 1, [], ?_, ?_, ?_, hpl, by intro _; exact le_refl _⟩
            · simp [World.afterRecv, hc]
            · intro x hx
              rcases List.mem_cons.mp hx with rfl | hx
              · simp [Event.isChunk, hc']
              · exact hgt x hx
            · simp [stream, hd]

theorem receive_data_good (w : World) (mem : Mem) (buffer : Int) (payload rest : List Nat)
    (fuel : Nat) (hgood : Good w.inbox) (hstream : stream w.inbox = payload ++ rest)
    (hfuel : payload.length ≤ fuel) (hsize : payload.length < 2 ^ 31) :
    ∃ inbox' k log,
      receive_data fuel w mem buffer (payload.length : Int) =
        Outcome.returned (memWrite mem buffer payload) (w.afterRecv inbox' k log) ∧
      Good inbox' ∧ stream inbox' = rest ∧ k ≤ payload.length ∧ (payload ≠ [] → 1 ≤ k) :=
  receive_loop_good w.inbox payload rest w mem buffer fuel rfl hgood hstream hfuel hsize

/-! ## `receive_data` on a transport that does not deliver -/

/-- Every `recv` returns `0`: the events still queued carry no byte, and
after them the peer has closed. -/
theorem recv_silent (w : World) (mem : Mem) (buffer size : Int)
    (h : ∀ e ∈ w.inbox, e = Event.data []) :
    (recv w mem buffer size).1 = 0 ∧ (recv w mem buffer size).2.2 = mem ∧
      ∀ e ∈ (recv w mem buffer size).2.1.inbox, e = Event.data [] := by
  unfold recv
  cases hi : w.inbox with
  | nil => simp
  | cons e tl =>
    rw [hi] at h
    have he : e = Event.data [] := h e (by simp)
    subst he
    have ht : ∀ x ∈ tl, x = Event.data [] := fun x hx => h x (by simp [hx])
    simp [memWrite]
    exact ht

theorem receive_body_silent (w : World) (mem : Mem) (buffer size : Int)
    (h : ∀ e ∈ w.inbox, e = Event.data []) (hpos : 0 < size) :
    (receive_body w mem { received := 0, buffer := buffer, size := size }).2 =
        (mem, { received := 0, buffer := buffer, size := size }) ∧
      ∀ e ∈ (receive_body w mem { received := 0, buffer := buffer, size := size }).1.inbox,
        e = Event.data [] := by
  obtain ⟨h1, h2, h3⟩ := recv_silent w mem buffer size h
  unfold receive_body
  simp only [h1, hpos, if_true, h2]
  refine ⟨?_, h3⟩
  simp

theorem receive_loop_silent (fuel : Nat) :
    ∀ (w : World) (mem : Mem) (buffer size : Int),
      (∀ e ∈ w.inbox, e = Event.data []) → 0 < size →
      receive_loop fuel w mem { received := 0, buffer := buffer, size := size } =
        Outcome.diverged := by
  induction fuel with
  | zero =>
    intro w mem buffer size _ hpos
    have : (0 : Int) ≠ size := by omega
    simp [receive_loop, this]
  | succ f ih =>
    intro w mem buffer size h hpos
    have hne : (0 : Int) ≠ size := by omega
    rw [receive_loop_step _ _ _ _ hne]
    obtain ⟨h1, h2⟩ := receive_body_silent w mem buffer size h hpos
    have e1 : (receive_body w mem { received := 0, buffer := buffer, size := size }).2.1 = mem :=
      congrArg Prod.fst h1
    have e2 : (receive_body w mem { received := 0, buffer := buffer, size := size }).2.2 =
        { received := 0, buffer := buffer, size := size } := congrArg Prod.snd h1
    rw [e1, e2]
    exact ih _ mem buffer size h2 hpos

/-- A receive that asks for more bytes than the peer sends before closing
never returns. -/
theorem receive_loop_starved (inbox : List Event) :
    ∀ (w : World) (mem : Mem) (buffer : Int) (size fuel : Nat),
      w.inbox = inbox → Good inbox → (stream inbox).length < size → size < 2 ^ 31 →
      receive_loop fuel w mem { received := 0, buffer := buffer, size := (size : Int) } =
        Outcome.diverged := by
  induction inbox with
  | nil =>
    intro w mem buffer size fuel hw _ hlt _
    apply receive_loop_silent
    · intro e he; rw [hw] at he; simp at he
    · simp [stream] at hlt; omega
  | cons e tl ih =>
    intro w mem buffer size fuel hw hg hlt hsz
    obtain ⟨he, hgt⟩ := good_cons hg
    cases e with
    | error => simp [Event.isChunk] at he
    | data bs =>
      simp only [stream, List.length_append] at hlt
      have hne : (0 : Int) ≠ (size : Int) := by omega
      cases fuel with
      | zero => simp [receive_loop, hne]
      | succ f =>
        rw [receive_loop_step _ _ _ _ hne]
        have hrv := recv_fits w mem buffer (size : Int) bs tl hw
          (by rw [sizeT_natCast size hsz]; omega)
        have hbody := receive_body_short w mem
          { received := 0, buffer := buffer, size := (size : Int) } _ _ _ hrv
          (by show (bs.length : Int) < (size : Int); omega)
        rw [hbody]
        have hsub : (size : Int) - (bs.length : Int) = ((size - bs.length : Nat) : Int) := by
          omega
        simp only [hsub]
        exact ih _ _ _ (size - bs.length) f rfl hgt (by omega) (by omega)

/-! ## More fuel never changes a result -/

theorem receive_loop_succ (fuel : Nat) :
    ∀ (w : World) (mem : Mem) (st : RState),
      receive_loop fuel w mem st ≠ Outcome.diverged →
      receive_loop (fuel + 1) w mem st = receive_loop fuel w mem st := by
  induction fuel with
  | zero =>
    intro w mem st h
    by_cases hs : st.received = st.size
    · rw [receive_loop_done _ _ _ _ hs, receive_loop_done _ _ _ _ hs]
    · exfalso; apply h; simp [receive_loop, hs]
  | succ f ih =>
    intro w mem st h
    by_cases hs : st.received = st.size
    · rw [receive_loop_done _ _ _ _ hs, receive_loop_done _ _ _ _ hs]
    · rw [receive_loop_step _ _ _ _ hs] at h ⊢
      rw [receive_loop_step _ _ _ _ hs]
      exact ih _ _ _ h

theorem receive_loop_mono (fuel k : Nat) (w : World) (mem : Mem) (st : RState)
    (h : receive_loop fuel w mem st ≠ Outcome.diverged) :
    receive_loop (fuel + k) w mem st = receive_loop fuel w mem st := by
  induction k with
  | zero => rfl
  | succ k ih =>
    rw [← Nat.add_assoc, receive_loop_succ _ _ _ _ (by rw [ih]; exact h), ih]

/-- With any fuel, a receive on a delivering transport either has not
finished or has the result that enough fuel gives. -/
theorem receive_data_good_or_diverged (w : World) (mem : Mem) (buffer : Int)
    (payload rest : List Nat) (fuel : Nat) (hgood : Good w.inbox)
    (hstream : stream w.inbox = payload ++ rest) (hsize : payload.length < 2 ^ 31) :
    receive_data fuel w mem buffer (payload.length : Int) = Outcome.diverged ∨
    ∃ inbox' k log,
      receive_data fuel w mem buffer (payload.length : Int) =
        Outcome.returned (memWrite mem buffer payload) (w.afterRecv inbox' k log) ∧
      Good inbox' ∧ stream inbox' = rest ∧ k ≤ payload.length ∧ (payload ≠ [] → 1 ≤ k) := by
  by_cases hd : receive_data fuel w mem buffer (payload.length : Int) = Outcome.diverged
  · exact Or.inl hd
  · right
    obtain ⟨inbox', k, log, h1, h2⟩ :=
      receive_data_good w mem buffer payload rest (fuel + payload.length) hgood hstream
        (by omega) hsize
    refine ⟨inbox', k, log, ?_, h2⟩
    rw [← h1]
    exact (receive_loop_mono fuel payload.length w mem _ hd).symm

/-! ## What a call leaves untouched -/

theorem send_frame (w : World) (bs : List Nat) :
    (send w bs).2.inbox = w.inbox ∧ (send w bs).2.timers = w.timers ∧
    (send w bs).2.clock = w.clock ∧ (send w bs).2.sendFails = w.sendFails ∧
    (send w bs).2.sends = w.sends + 1 ∧ (send w bs).2.stdout = w.stdout ∧
    (send w bs).2.hostbuf = w.hostbuf ∧ (send w bs).2.recvs = w.recvs := by
  unfold send
  split <;> simp

theorem recv_frame (w : World) (mem : Mem) (buffer size : Int) :
    (recv w mem buffer size).2.1.outbox = w.outbox ∧
    (recv w mem buffer size).2.1.sends = w.sends ∧
    (recv w mem buffer size).2.1.timers = w.timers ∧
    (recv w mem buffer size).2.1.clock = w.clock ∧
    (recv w mem buffer size).2.1.sendFails = w.sendFails := by
  unfold recv
  split
  · simp
  · simp
  · split <;> simp

theorem receive_body_frame (w : World) (mem : Mem) (st : RState) :
    (receive_body w mem st).1.outbox = w.outbox ∧
    (receive_body w mem st).1.sends = w.sends ∧
    (receive_body w mem st).1.timers = w.timers ∧
    (receive_body w mem st).1.clock = w.clock ∧
    (receive_body w mem st).1.sendFails = w.sendFails := by
  obtain ⟨h1, h2, h3, h4, h5⟩ := recv_frame w mem st.buffer st.size
  by_cases hlt : (recv w mem st.buffer st.size).1 < st.size
  · rw [receive_body_short w mem st _ _ _ rfl hlt]
    exact ⟨h1, h2, h3, h4, h5⟩
  · rw [receive_body_full w mem st _ _ _ rfl hlt]
    exact ⟨h1, h2, h3, h4, h5⟩

theorem receive_loop_frame (fuel : Nat) :
    ∀ (w : World) (mem : Mem) (st : RState) (m : Mem) (w' : World),
      receive_loop fuel w mem st = Outcome.returned m w' →
      w'.outbox = w.outbox ∧ w'.sends = w.sends ∧ w'.timers = w.timers ∧
      w'.clock = w.clock ∧ w'.sendFails = w.sendFails := by
  induction fuel with
  | zero =>
    intro w mem st m w' h
    by_cases hs : st.received = st.size
    · rw [receive_loop_done _ _ _ _ hs] at h
      cases h; exact ⟨rfl, rfl, rfl, rfl, rfl⟩
    · simp [receive_loop, hs] at h
  | succ f ih =>
    intro w mem st m w' h
    by_cases hs : st.received = st.size
    · rw [receive_loop_done _ _ _ _ hs] at h
      cases h; exact ⟨rfl, rfl, rfl, rfl, rfl⟩
    · rw [receive_loop_step _ _ _ _ hs] at h
      obtain ⟨a1, a2, a3, a4, a5⟩ := ih _ _ _ _ _ h
      obtain ⟨b1, b2, b3, b4, b5⟩ := receive_body_frame w mem st
      exact ⟨a1.trans b1, a2.trans b2, a3.trans b3, a4.trans b4, a5.trans b5⟩

theorem pongs_hostname_frame (abi : Abi) (w : World) :
    (pongs_hostname abi w).inbox = w.inbox ∧ (pongs_hostname abi w).timers = w.timers ∧
    (pongs_hostname abi w).clock = w.clock ∧
    (pongs_hostname abi w).sendFails = w.sendFails ∧
    (pongs_hostname abi w).sends = w.sends + 2 ∧
    (pongs_hostname abi w).stdout = w.stdout := by
  simp only [pongs_hostname]
  obtain ⟨a1, a2, a3, a4, a5, a6, _, _⟩ :=
    send_frame w (encodeInt abi (wrapInt (strlen w.hostbuf)))
  obtain ⟨b1, b2, b3, b4, b5, b6, _, _⟩ :=
    send_frame (send w (encodeInt abi (wrapInt (strlen w.hostbuf)))).2
      (w.hostbuf.take (sizeT (wrapInt (strlen w.hostbuf))))
  exact ⟨b1.trans a1, b2.trans a2, b3.trans a3, b4.trans a4, by rw [b5, a5], b6.trans a6⟩

/-! ## One round of the master -/

theorem ping_wait_pong_ok (abi : Abi) (fuel : Nat) (w : World) (frame rest : List Nat)
    (hsend : w.sendFails w.sends = false) (hgood : Good w.inbox)
    (hstream : stream w.inbox = frame ++ rest) (hlen : frame.length = 8)
    (hfuel : 8 ≤ fuel) :
    ∃ inbox' k log,
      ping_wait_pong abi fuel w =
        Outcome.returned
          (sample abi (timerAt abi w w.timers) (timerAt abi w (w.timers + 1))
            (decodeTs abi frame))
          (w.afterRound abi inbox' k log) ∧
      Good inbox' ∧ stream inbox' = rest ∧ 1 ≤ k ∧ k ≤ 8 := by
  have hne : frame ≠ [] := by
    intro h; rw [h] at hlen; simp at hlen
  obtain ⟨inbox', k, log, h1, h2, h3, h4, h5⟩ :=
    receive_data_good (send (timer abi w).2 (encodeTs abi (timer abi w).1)).2 zeroMem 0
      frame rest fuel (by simpa [send, timer, hsend] using hgood)
      (by simpa [send, timer, hsend] using hstream) (by omega) (by rw [hlen]; norm_num)
  rw [hlen] at h1 h4
  refine ⟨inbox', k, log, ?_, h2, h3, h5 hne, h4⟩
  unfold ping_wait_pong
  have hs1 : (send (timer abi w).2 (encodeTs abi (timer abi w).1)).1 ≠ -1 := by
    simp [send, timer, hsend]
  simp only [hs1, if_false]
  have h8 : ((8 : Nat) : Int) = 8 := rfl
  rw [h8] at h1
  rw [h1]
  simp only
  have hm : memRead (memWrite zeroMem 0 frame) 0 8 = frame := by
    have := memRead_memWrite zeroMem 0 frame
    rwa [hlen] at this
  rw [hm]
  simp [sample, World.afterRound, World.afterRecv, timer, send, hsend, timerAt]

/-- In the embedding, a round that returns has computed its `local` and
`delta` from the two clock readings. -/
theorem ping_wait_pong_values (abi : Abi) (fuel : Nat) (w : World) (s : Int × Int × Int)
    (w' : World) (h : ping_wait_pong abi fuel w = Outcome.returned s w') :
    s.1 = (sample abi (timerAt abi w w.timers) (timerAt abi w (w.timers + 1)) s.2.1).1 ∧
    s.2.2 = (sample abi (timerAt abi w w.timers) (timerAt abi w (w.timers + 1)) s.2.1).2.2 := by
  unfold ping_wait_pong at h
  by_cases hsf : w.sendFails w.sends = true
  · have hs1 : (send (timer abi w).2 (encodeTs abi (timer abi w).1)).1 = -1 := by
      simp [send, timer, hsf]
    simp [hs1] at h
  · have hsf' : w.sendFails w.sends = false := by simpa using hsf
    have hs1 : (send (timer abi w).2 (encodeTs abi (timer abi w).1)).1 ≠ -1 := by
      simp [send, timer, hsf']
    simp only [hs1, if_false] at h
    split at h
    · rename_i m w1 e1
      obtain ⟨_, _, a3, a4, _⟩ := receive_loop_frame _ _ _ _ _ _ e1
      cases h
      have ht : w1.timers = w.timers + 1 := by rw [a3]; simp [send, timer, hsf']
      have hc : w1.clock = w.clock := by rw [a4]; simp [send, timer, hsf']
      simp [sample, timer, timerAt, ht, hc]
    · cases h
    · cases h

theorem sample_of_le (abi : Abi) (t0 t1 r : Int) (h0 : InRangeTs abi t0)
    (h1 : InRangeTs abi t1) (hle : t0 ≤ t1) (hno : InRangeTs abi (t1 - t0)) :
    sample abi t0 t1 r = (t0 + (t1 - t0) / 2, r, t1 - t0) ∧
      t0 ≤ t0 + (t1 - t0) / 2 ∧ t0 + (t1 - t0) / 2 ≤ t1 := by
  have hd : 0 ≤ t1 - t0 := by omega
  have hb1 : t0 ≤ t0 + (t1 - t0) / 2 := by omega
  have hb2 : t0 + (t1 - t0) / 2 ≤ t1 := by omega
  refine ⟨?_, hb1, hb2⟩
  unfold sample
  rw [wrapTs_of_inRange abi _ hno, Int.tdiv_eq_ediv hd (by norm_num),
    wrapTs_of_inRange abi _ (inRangeTs_between abi t0 t1 _ h0 h1 hb1 hb2)]

/-! ## The rounds of `pings` -/

theorem pings_hostname_ok (abi : Abi) (fuel : Nat) (w : World) (mem : Mem) (host : Int)
    (h rest : List Nat) (hgood : Good w.inbox)
    (hstream : stream w.inbox = encodeInt abi (h.length : Int) ++ h ++ rest)
    (hh : h.length < 2 ^ 31) (hf4 : 4 ≤ fuel) (hfh : h.length ≤ fuel) :
    ∃ inbox' k log,
      pings_hostname abi fuel w mem host =
        Outcome.returned (memStore (memWrite mem host h) (host + (h.length : Int)) 0)
          (w.afterRecv inbox' k log) ∧
      Good inbox' ∧ stream inbox' = rest := by
  have hl4 := encodeInt_length abi (h.length : Int)
  obtain ⟨i1, k1, l1, e1, g1, s1, _, _⟩ :=
    receive_data_good w zeroMem 0 (encodeInt abi (h.length : Int)) (h ++ rest) fuel hgood
      (by rw [hstream, List.append_assoc]) (by omega) (by rw [hl4]; norm_num)
  rw [hl4] at e1
  obtain ⟨i2, k2, l2, e2, g2, s2, _, _⟩ :=
    receive_data_good (w.afterRecv i1 k1 l1) mem host h rest fuel g1 s1 hfh hh
  refine ⟨i2, k1 + k2, l1 ++ l2, ?_, g2, s2⟩
  unfold pings_hostname
  have h4 : ((4 : Nat) : Int) = 4 := rfl
  rw [h4] at e1
  rw [e1]
  simp only
  have hm : memRead (memWrite zeroMem 0 (encodeInt abi (h.length : Int))) 0 4 =
      encodeInt abi (h.length : Int) := by
    have := memRead_memWrite zeroMem 0 (encodeInt abi (h.length : Int))
    rwa [hl4] at this
  have hdec : decodeInt abi (encodeInt abi (h.length : Int)) = (h.length : Int) :=
    decodeInt_encodeInt abi _ (by omega) (by exact_mod_cast hh)
  rw [hm, hdec, e2, afterRecv_afterRecv]

theorem clockShows_congr (abi : Abi) (w w' : World) (hc : w'.clock = w.clock)
    (rounds : List Round) : ∀ n, clockShows abi w n rounds → clockShows abi w' n rounds := by
  induction rounds with
  | nil => intro n _; trivial
  | cons x xs ih =>
    intro n h
    obtain ⟨h1, h2, h3⟩ := h
    refine ⟨?_, ?_, ih _ h3⟩
    · simpa [timerAt, hc] using h1
    · simpa [timerAt, hc] using h2

theorem clockShows_inRange (abi : Abi) (w : World) (rounds : List Round) :
    ∀ n, clockShows abi w n rounds →
      ∀ x ∈ rounds, InRangeTs abi x.t0 ∧ InRangeTs abi (x.t0 + x.d) := by
  induction rounds with
  | nil => intro n _ x hx; simp at hx
  | cons y ys ih =>
    intro n h x hx
    obtain ⟨h1, h2, h3⟩ := h
    rcases List.mem_cons.mp hx with rfl | hx
    · exact ⟨h1 ▸ timerAt_inRange abi w n, h2 ▸ timerAt_inRange abi w (n + 1)⟩
    · exact ih _ h3 x hx

theorem pings_loop_ok (abi : Abi) (fuel : Nat) (hfuel : 8 ≤ fuel) (rounds : List Round) :
    ∀ (w : World) (b : Best) (rest : List Nat),
      Good w.inbox →
      stream w.inbox = (rounds.map fun x => encodeTs abi x.r).flatten ++ rest →
      (∀ i < rounds.length, w.sendFails (w.sends + i) = false) →
      clockShows abi w w.timers rounds →
      (∀ x ∈ rounds, InRangeTs abi x.r) →
      ∃ w', pings_loop abi fuel rounds.length w b =
          Outcome.returned (bestAfter abi b rounds) w' ∧
        Good w'.inbox ∧ stream w'.inbox = rest ∧
        w'.timers = w.timers + 2 * rounds.length ∧
        w'.sends = w.sends + rounds.length ∧
        w'.outbox = w.outbox ++ rounds.map (fun x => encodeTs abi x.t0) ∧
        w'.clock = w.clock ∧ w'.sendFails = w.sendFails ∧ w'.hostbuf = w.hostbuf ∧
        w'.stdout = w.stdout := by
  induction rounds with
  | nil =>
    intro w b rest hg hs _ _ _
    exact ⟨w, rfl, hg, by simpa using hs, rfl, rfl, by simp, rfl, rfl, rfl, rfl⟩
  | cons x xs ih =>
    intro w b rest hg hs hsend hclock hr
    obtain ⟨hc0, hc1, hc2⟩ := hclock
    have hs' : stream w.inbox =
        encodeTs abi x.r ++ ((xs.map fun x => encodeTs abi x.r).flatten ++ rest) := by
      rw [hs]; simp
    obtain ⟨inbox', k, log, e1, g1, s1, _, _⟩ :=
      ping_wait_pong_ok abi fuel w (encodeTs abi x.r) _ (by simpa using hsend 0 (by simp))
        hg hs' (encodeTs_length abi x.r) hfuel
    rw [decodeTs_encodeTs, wrapTs_of_inRange abi x.r (hr x (by simp)), hc0, hc1] at e1
    obtain ⟨w', e2, g2, s2, t2, n2, o2, c2, f2, b2, d2⟩ :=
      ih (w.afterRound abi inbox' k log) (keep_best b (x.sample abi)) rest g1 s1
        (by
          intro i hi
          have := hsend (i + 1) (by simp; omega)
          simpa [World.afterRound, Nat.add_assoc, Nat.add_comm 1 i] using this)
        (clockShows_congr abi w (w.afterRound abi inbox' k log) rfl xs _ hc2)
        (fun y hy => hr y (by simp [hy]))
    refine ⟨w', ?_, g2, s2, ?_, ?_, ?_, c2, f2, b2, d2⟩
    · simp only [List.length_cons, pings_loop, e1]
      simpa [bestAfter, Round.sample] using e2
    · rw [t2]; simp [World.afterRound]; omega
    · rw [n2]; simp [World.afterRound]; omega
    · rw [o2]; simp [World.afterRound, hc0]

theorem pings_ok (abi : Abi) (fuel : Nat) (sample_size : Int) (w : World) (mem : Mem)
    (host lt rt : Int) (h rest : List Nat) (rounds : List Round)
    (hsz : sample_size.toNat = rounds.length) (hgood : Good w.inbox)
    (hstream : stream w.inbox =
      encodeInt abi (h.length : Int) ++ h ++
        (rounds.map fun x => encodeTs abi x.r).flatten ++ rest)
    (hh : h.length < 2 ^ 31)
    (hsend : ∀ i < rounds.length, w.sendFails (w.sends + i) = false)
    (hclock : clockShows abi w w.timers rounds)
    (hr : ∀ x ∈ rounds, InRangeTs abi x.r) (hf8 : 8 ≤ fuel) (hfh : h.length ≤ fuel) :
    ∃ w', pings abi fuel sample_size w mem host lt rt =
        Outcome.returned
          (memStore (memWrite mem host h) (host + (h.length : Int)) 0,
            (bestAfter abi { mdelta := 1000000000, local_time := lt, remote_time := rt }
              rounds).local_time,
            (bestAfter abi { mdelta := 1000000000, local_time := lt, remote_time := rt }
              rounds).remote_time) w' ∧
      Good w'.inbox ∧ stream w'.inbox = rest ∧
      w'.timers = w.timers + 2 * rounds.length ∧
      w'.sends = w.sends + rounds.length + 1 ∧
      w'.outbox = w.outbox ++ rounds.map (fun x => encodeTs abi x.t0) ++
        (if w.sendFails (w.sends + rounds.length) then [] else [encodeTs abi 0]) ∧
      w'.stdout = w.stdout ∧ w'.hostbuf = w.hostbuf := by
  obtain ⟨i1, k1, l1, e1, g1, s1⟩ :=
    pings_hostname_ok abi fuel w mem host h
      ((rounds.map fun x => encodeTs abi x.r).flatten ++ rest) hgood
      (by rw [hstream]; simp) hh (by omega) hfh
  obtain ⟨w2, e2, g2, s2, t2, n2, o2, c2, f2, b2, d2⟩ :=
    pings_loop_ok abi fuel hf8 rounds (w.afterRecv i1 k1 l1)
      { mdelta := 1000000000, local_time := lt, remote_time := rt } rest g1 s1 hsend
      (clockShows_congr abi w (w.afterRecv i1 k1 l1) rfl rounds _ hclock) hr
  have hsends : w2.sends = w.sends + rounds.length := n2
  have hfail : w2.sendFails w2.sends = w.sendFails (w.sends + rounds.length) := by
    rw [f2, hsends]; rfl
  refine ⟨(send w2 (encodeTs abi 0)).2, ?_, ?_, ?_, ?_, ?_, ?_, ?_, ?_⟩
  · unfold pings
    rw [e1]
    simp only [hsz, wrapTs_billion]
    rw [e2]
  · unfold send; split <;> exact g2
  · unfold send; split <;> exact s2
  · unfold send; split <;> exact t2
  · unfold send; split <;> simp [hsends]
  · unfold send
    rw [hfail]
    split
    · simp [o2, World.afterRecv]
    · simp [o2, World.afterRecv]
  · unfold send; split <;> exact d2
  · unfold send; split <;> exact b2

theorem master_ok (abi : Abi) (fuel : Nat) (sample_size : Int) (w : World) (mem : Mem)
    (host : Int) (h rest : List Nat) (rounds : List Round)
    (hsz : sample_size.toNat = rounds.length) (hgood : Good w.inbox)
    (hstream : stream w.inbox =
      encodeInt abi (h.length : Int) ++ h ++
        (rounds.map fun x => encodeTs abi x.r).flatten ++ rest)
    (hh : h.length < 2 ^ 31)
    (hsend : ∀ i < rounds.length, w.sendFails (w.sends + i) = false)
    (hclock : clockShows abi w w.timers rounds)
    (hr : ∀ x ∈ rounds, InRangeTs abi x.r) (hf8 : 8 ≤ fuel) (hfh : h.length ≤ fuel) :
    ∃ w', master abi fuel sample_size w mem host =
        Outcome.returned (memStore (memWrite mem host h) (host + (h.length : Int)) 0) w' ∧
      w'.stdout = w.stdout ++
        [{ localHost := w.hostbuf.take (strlen w.hostbuf),
           localTime := toSigned 64
             (bestAfter abi { mdelta := 1000000000, local_time := 0, remote_time := 0 }
                rounds).local_time,
           remoteHost :=
             cstring (memStore (memWrite mem host h) (host + (h.length : Int)) 0) fuel host,
           remoteTime := toSigned 64
             (bestAfter abi { mdelta := 1000000000, local_time := 0, remote_time := 0 }
                rounds).remote_time }] := by
  obtain ⟨w1, e1, _, _, _, _, _, d1, b1⟩ :=
    pings_ok abi fuel sample_size w mem host 0 0 h rest rounds hsz hgood hstream hh hsend
      hclock hr hf8 hfh
  unfold master
  simp only [e1]
  exact ⟨_, rfl, by simp [d1, b1]⟩

/-! ## The running minimum -/

theorem bestAfter_cons (abi : Abi) (b : Best) (x : Round) (xs : List Round) :
    bestAfter abi b (x :: xs) = bestAfter abi (keep_best b (x.sample abi)) xs := rfl

theorem bestAfter_none (abi : Abi) (rounds : List Round) :
    ∀ b : Best, (∀ x ∈ rounds, b.mdelta < (x.sample abi).2.2) →
      bestAfter abi b rounds = b := by
  induction rounds with
  | nil => intro b _; rfl
  | cons x xs ih =>
    intro b h
    have hx := h x (by simp)
    have hk : keep_best b (x.sample abi) = b := by
      unfold keep_best
      rw [if_neg (by omega)]
    rw [bestAfter_cons, hk]
    exact ih b (fun y hy => h y (by simp [hy]))

theorem bestAfter_some (abi : Abi) (rounds : List Round) :
    ∀ b : Best, (∃ x ∈ rounds, (x.sample abi).2.2 ≤ b.mdelta) →
      ∃ pre k post, rounds = pre ++ k :: post ∧ (k.sample abi).2.2 ≤ b.mdelta ∧
        (∀ x ∈ pre, (k.sample abi).2.2 ≤ (x.sample abi).2.2) ∧
        (∀ x ∈ post, (k.sample abi).2.2 < (x.sample abi).2.2) ∧
        bestAfter abi b rounds =
          { mdelta := (k.sample abi).2.2, local_time := (k.sample abi).1,
            remote_time := (k.sample abi).2.1 } := by
  induction rounds with
  | nil => intro b h; obtain ⟨x, hx, _⟩ := h; simp at hx
  | cons x xs ih =>
    intro b h
    rw [bestAfter_cons]
    by_cases hx : (x.sample abi).2.2 ≤ b.mdelta
    · have hk : keep_best b (x.sample abi) =
          { mdelta := (x.sample abi).2.2, local_time := (x.sample abi).1,
            remote_time := (x.sample abi).2.1 } := by
        unfold keep_best; rw [if_pos hx]
      rw [hk]
      by_cases hy : ∃ y ∈ xs, (y.sample abi).2.2 ≤ (x.sample abi).2.2
      · obtain ⟨pre, k, post, e, hkb, hpre, hpost, hres⟩ :=
          ih { mdelta := (x.sample abi).2.2, local_time := (x.sample abi).1,
               remote_time := (x.sample abi).2.1 } hy
        refine ⟨x :: pre, k, post, by rw [e]; rfl, le_trans hkb hx, ?_, hpost, hres⟩
        intro z hz
        rcases List.mem_cons.mp hz with rfl | hz
        · exact hkb
        · exact hpre z hz
      · have hall : ∀ y ∈ xs, (x.sample abi).2.2 < (y.sample abi).2.2 := by
          intro y hy'
          by_contra hc
          exact hy ⟨y, hy', by omega⟩
        refine ⟨[], x, xs, rfl, hx, by intro z hz; simp at hz, hall, ?_⟩
        exact bestAfter_none abi xs _ hall
    · have hk : keep_best b (x.sample abi) = b := by
        unfold keep_best; rw [if_neg hx]
      rw [hk]
      have h' : ∃ y ∈ xs, (y.sample abi).2.2 ≤ b.mdelta := by
        obtain ⟨y, hy, hyb⟩ := h
        rcases List.mem_cons.mp hy with rfl | hy
        · exact absurd hyb hx
        · exact ⟨y, hy, hyb⟩
      obtain ⟨pre, k, post, e, hkb, hpre, hpost, hres⟩ := ih b h'
      refine ⟨x :: pre, k, post, by rw [e]; rfl, hkb, ?_, hpost, hres⟩
      intro z hz
      rcases List.mem_cons.mp hz with rfl | hz
      · omega
      · exact hpre z hz

theorem round_sample_eq (abi : Abi) (x : Round) (h0 : InRangeTs abi x.t0)
    (h1 : InRangeTs abi (x.t0 + x.d)) (hd : 0 ≤ x.d) (hr : InRangeTs abi x.d) :
    x.sample abi = (x.t0 + x.d / 2, x.r, x.d) := by
  have e : x.t0 + x.d - x.t0 = x.d := by ring
  have := (sample_of_le abi x.t0 (x.t0 + x.d) x.r h0 h1 (by omega) (by rw [e]; exact hr)).1
  rw [e] at this
  exact this

theorem last_minimum (abi : Abi) (w : World) (n : Nat) (rounds : List Round) (lt rt : Int)
    (hclock : clockShows abi w n rounds)
    (hrange : ∀ x ∈ rounds, 0 ≤ x.d ∧ InRangeTs abi x.d ∧ InRangeTs abi x.r)
    (hcap : ∃ x ∈ rounds, x.d ≤ 1000000000) :
    ∃ pre k post, rounds = pre ++ k :: post ∧ k.d ≤ 1000000000 ∧
      (∀ x ∈ pre, k.d ≤ x.d) ∧ (∀ x ∈ post, k.d < x.d) ∧
      bestAfter abi { mdelta := 1000000000, local_time := lt, remote_time := rt } rounds =
        { mdelta := k.d, local_time := k.t0 + k.d / 2, remote_time := k.r } := by
  have hs : ∀ x ∈ rounds, x.sample abi = (x.t0 + x.d / 2, x.r, x.d) := by
    intro x hx
    obtain ⟨h0, h1⟩ := clockShows_inRange abi w rounds n hclock x hx
    obtain ⟨hd, hdr, _⟩ := hrange x hx
    exact round_sample_eq abi x h0 h1 hd hdr
  obtain ⟨x, hx, hxd⟩ := hcap
  obtain ⟨pre, k, post, e, hk, hpre, hpost, hres⟩ :=
    bestAfter_some abi rounds
      { mdelta := 1000000000, local_time := lt, remote_time := rt }
      ⟨x, hx, by rw [hs x hx]; exact hxd⟩
  have hkm : k ∈ rounds := by rw [e]; simp
  have hks := hs k hkm
  rw [hks] at hk hpre hpost hres
  refine ⟨pre, k, post, e, hk, ?_, ?_, hres⟩
  · intro y hy
    have := hpre y hy
    rwa [hs y (by rw [e]; simp [hy])] at this
  · intro y hy
    have := hpost y hy
    rwa [hs y (by rw [e]; simp [hy])] at this

theorem none_retained (abi : Abi) (w : World) (n : Nat) (rounds : List Round) (lt rt : Int)
    (hclock : clockShows abi w n rounds)
    (hrange : ∀ x ∈ rounds, 0 ≤ x.d ∧ InRangeTs abi x.d ∧ InRangeTs abi x.r)
    (hcap : ∀ x ∈ rounds, 1000000000 < x.d) :
    bestAfter abi { mdelta := 1000000000, local_time := lt, remote_time := rt } rounds =
      { mdelta := 1000000000, local_time := lt, remote_time := rt } := by
  apply bestAfter_none
  intro x hx
  obtain ⟨h0, h1⟩ := clockShows_inRange abi w rounds n hclock x hx
  obtain ⟨hd, hdr, _⟩ := hrange x hx
  rw [round_sample_eq abi x h0 h1 hd hdr]
  exact hcap x hx

theorem last_minimum_unique (pre post pre' post' : List Round) (k k' : Round)
    (e : pre ++ k :: post = pre' ++ k' :: post')
    (hpre : ∀ x ∈ pre, k.d ≤ x.d) (hpost : ∀ x ∈ post, k.d < x.d)
    (hpre' : ∀ x ∈ pre', k'.d ≤ x.d) (hpost' : ∀ x ∈ post', k'.d < x.d) : k' = k := by
  rcases List.append_eq_append_iff.mp e with ⟨a, ha, hb⟩ | ⟨c, hc, hd⟩
  · cases a with
    | nil => simp at hb; exact hb.1.symm
    | cons y ys =>
      simp at hb
      obtain ⟨rfl, hb⟩ := hb
      have h1 := hpre' k (by rw [ha]; simp)
      have h2 := hpost k' (by rw [hb]; simp)
      omega
  · cases c with
    | nil => simp at hd; exact hd.1
    | cons y ys =>
      simp at hd
      obtain ⟨rfl, hd⟩ := hd
      have h1 := hpre k' (by rw [hc]; simp)
      have h2 := hpost' k (by rw [hd]; simp)
      omega

/-! ## The slave engine -/

theorem pongs_hostname_ok (abi : Abi) (w : World) (h junk : List Nat)
    (hnz : ∀ b ∈ h, b ≠ 0) (hlen : h.length < 2 ^ 31) (hbuf : w.hostbuf = h ++ 0 :: junk)
    (hs1 : w.sendFails w.sends = false) (hs2 : w.sendFails (w.sends + 1) = false) :
    pongs_hostname abi w =
      { w with sends := w.sends + 2,
               outbox := w.outbox ++ [encodeInt abi (h.length : Int), h] } := by
  have hstr : strlen w.hostbuf = h.length := by rw [hbuf]; exact strlen_terminated h junk hnz
  have hwrap : wrapInt (h.length : Int) = (h.length : Int) := by
    unfold wrapInt toSigned
    have : (h.length : Int) < 2 ^ 31 := by exact_mod_cast hlen
    norm_num at this ⊢
    omega
  have htake : w.hostbuf.take h.length = h := by rw [hbuf]; simp
  unfold pongs_hostname
  simp only [hstr, hwrap, sizeT_natCast _ hlen, htake]
  simp [send, hs1, hs2]

theorem pongs_loop_step_cases (abi : Abi) (rfuel fuel : Nat) (w : World) (mem : Mem)
    (frame rest : List Nat) (hgood : Good w.inbox)
    (hstream : stream w.inbox = frame ++ rest) (hlen : frame.length = 8) :
    pongs_loop abi rfuel (fuel + 1) w mem = Outcome.diverged ∨
    ∃ inbox' k log, Good inbox' ∧ stream inbox' = rest ∧ 1 ≤ k ∧
      pongs_loop abi rfuel (fuel + 1) w mem =
        if w.sendFails w.sends then
          Outcome.exited 1
            { w with inbox := inbox', recvs := w.recvs + k,
                     stderr := w.stderr ++ log ++ [Diag.pongSendFailed],
                     timers := w.timers + 1, sends := w.sends + 1 }
        else if decodeTs abi frame ≠ 0 then
          pongs_loop abi rfuel fuel (w.afterReply abi inbox' k log) (memWrite mem 0 frame)
        else Outcome.returned () (w.afterReply abi inbox' k log) := by
  have hne : frame ≠ [] := by
    intro h; rw [h] at hlen; simp at hlen
  rcases receive_data_good_or_diverged w mem 0 frame rest rfuel hgood hstream
      (by rw [hlen]; norm_num) with hd | ⟨inbox', k, log, h1, h2, h3, _, h5⟩
  · left
    rw [hlen] at hd
    have h8 : ((8 : Nat) : Int) = 8 := rfl
    rw [h8] at hd
    simp [pongs_loop, hd]
  · right
    refine ⟨inbox', k, log, h2, h3, h5 hne, ?_⟩
    rw [hlen] at h1
    have h8 : ((8 : Nat) : Int) = 8 := rfl
    rw [h8] at h1
    have hm : memRead (memWrite mem 0 frame) 0 8 = frame := by
      have := memRead_memWrite mem 0 frame
      rwa [hlen] at this
    simp only [pongs_loop, h1, hm]
    by_cases hf : w.sendFails w.sends = true
    · simp [send, timer, World.afterRecv, hf]
    · have hf' : w.sendFails w.sends = false := by simpa using hf
      by_cases hz : decodeTs abi frame = 0
      · simp [send, timer, World.afterRecv, World.afterReply, hf', hz, timerAt]
      · simp [send, timer, World.afterRecv, World.afterReply, hf', hz, timerAt]

theorem replies_congr (abi : Abi) (w w' : World) (hc : w'.clock = w.clock) (n : Nat) :
    ∀ start, replies abi w' start n = replies abi w start n := by
  induction n with
  | zero => intro _; rfl
  | succ n ih =>
    intro start
    simp only [replies, ih, timerAt, hc]

theorem pongs_loop_serves (abi : Abi) (rfuel : Nat) (pings : List Int) :
    ∀ (fuel : Nat) (w : World) (mem : Mem) (rest : List Nat),
      Good w.inbox →
      stream w.inbox = (pings.map (encodeTs abi)).flatten ++ encodeTs abi 0 ++ rest →
      (∀ p ∈ pings, InRangeTs abi p ∧ p ≠ 0) →
      (∀ i ≤ pings.length, w.sendFails (w.sends + i) = false) →
      pongs_loop abi rfuel fuel w mem = Outcome.diverged ∨
      ∃ w', pongs_loop abi rfuel fuel w mem = Outcome.returned () w' ∧
        Good w'.inbox ∧ stream w'.inbox = rest ∧
        w'.timers = w.timers + (pings.length + 1) ∧
        w'.sends = w.sends + (pings.length + 1) ∧
        w'.recvs ≥ w.recvs + (pings.length + 1) ∧
        w'.outbox = w.outbox ++ replies abi w w.timers (pings.length + 1) ∧
        w'.stdout = w.stdout := by
  induction pings with
  | nil =>
    intro fuel w mem rest hg hs _ hsend
    cases fuel with
    | zero => left; rfl
    | succ f =>
      rcases pongs_loop_step_cases abi rfuel f w mem (encodeTs abi 0) rest hg
          (by simpa using hs) (encodeTs_length abi 0) with hd | ⟨inbox', k, log, g, s, hk, e⟩
      · exact Or.inl hd
      · right
        have hf : w.sendFails w.sends = false := by simpa using hsend 0 (le_refl _)
        rw [decodeTs_encodeTs, wrapTs_zero] at e
        simp only [hf, ne_eq, not_true_eq_false, if_false] at e
        simp only [Bool.false_eq_true, if_false] at e
        refine ⟨_, e, g, s, rfl, rfl, ?_, rfl, rfl⟩
        simp [World.afterReply]; omega
  | cons p ps ih =>
    intro fuel w mem rest hg hs hp hsend
    cases fuel with
    | zero => left; rfl
    | succ f =>
      rcases pongs_loop_step_cases abi rfuel f w mem (encodeTs abi p)
          ((ps.map (encodeTs abi)).flatten ++ encodeTs abi 0 ++ rest) hg
          (by rw [hs]; simp) (encodeTs_length abi p) with hd | ⟨inbox', k, log, g, s, hk, e⟩
      · exact Or.inl hd
      · have hf : w.sendFails w.sends = false := by simpa using hsend 0 (by simp)
        obtain ⟨hpr, hp0⟩ := hp p (by simp)
        rw [decodeTs_encodeTs, wrapTs_of_inRange abi p hpr] at e
        simp only [hf, ne_eq, hp0, not_false_eq_true, if_true] at e
        simp only [Bool.false_eq_true, if_false] at e
        rw [e]
        rcases ih f (w.afterReply abi inbox' k log) (memWrite mem 0 (encodeTs abi p)) rest g s
            (fun q hq => hp q (by simp [hq]))
            (by
              intro i hi
              have := hsend (i + 1) (by simp; omega)
              simpa [World.afterReply, Nat.add_assoc, Nat.add_comm 1 i] using this)
          with hd | ⟨w', e2, g2, s2, t2, n2, r2, o2, d2⟩
        · exact Or.inl hd
        · right
          refine ⟨w', e2, g2, s2, ?_, ?_, ?_, ?_, d2⟩
          · rw [t2]; simp [World.afterReply]; omega
          · rw [n2]; simp [World.afterReply]; omega
          · have : (w.afterReply abi inbox' k log).recvs = w.recvs + k := rfl
            rw [this] at r2
            simp only [List.length_cons]; omega
          · rw [o2]
            simp only [List.length_cons]
            show w.outbox ++ [encodeTs abi (timerAt abi w w.timers)] ++
                replies abi (w.afterReply abi inbox' k log) (w.timers + 1) (ps.length + 1) = _
            rw [List.append_assoc, replies_congr abi w (w.afterReply abi inbox' k log) rfl]
            rfl

theorem pongs_loop_returns (abi : Abi) (rfuel : Nat) (hrf : 8 ≤ rfuel) (pings : List Int) :
    ∀ (fuel : Nat) (w : World) (mem : Mem) (rest : List Nat),
      Good w.inbox →
      stream w.inbox = (pings.map (encodeTs abi)).flatten ++ encodeTs abi 0 ++ rest →
      (∀ p ∈ pings, InRangeTs abi p ∧ p ≠ 0) →
      pings.length < fuel →
      pongs_loop abi rfuel fuel w mem ≠ Outcome.diverged := by
  induction pings with
  | nil =>
    intro fuel w mem rest hg hs _ hfuel
    obtain ⟨f, rfl⟩ : ∃ f, fuel = f + 1 := ⟨fuel - 1, by simp at hfuel; omega⟩
    obtain ⟨inbox', k, log, h1, _⟩ :=
      receive_data_good w mem 0 (encodeTs abi 0) rest rfuel hg (by simpa using hs)
        (by rw [encodeTs_length]; exact hrf) (by rw [encodeTs_length]; norm_num)
    rw [encodeTs_length] at h1
    have h8 : ((8 : Nat) : Int) = 8 := rfl
    rw [h8] at h1
    have hm : memRead (memWrite mem 0 (encodeTs abi 0)) 0 8 = encodeTs abi 0 := by
      have := memRead_memWrite mem 0 (encodeTs abi 0)
      rwa [encodeTs_length] at this
    simp only [pongs_loop, h1, hm, decodeTs_encodeTs, wrapTs_zero]
    split <;> simp
  | cons p ps ih =>
    intro fuel w mem rest hg hs hp hfuel
    obtain ⟨f, rfl⟩ : ∃ f, fuel = f + 1 := ⟨fuel - 1, by simp at hfuel; omega⟩
    obtain ⟨inbox', k, log, h1, g1, s1, _⟩ :=
      receive_data_good w mem 0 (encodeTs abi p)
        ((ps.map (encodeTs abi)).flatten ++ encodeTs abi 0 ++ rest) rfuel hg
        (by rw [hs]; simp)
        (by rw [encodeTs_length]; exact hrf) (by rw [encodeTs_length]; norm_num)
    rw [encodeTs_length] at h1
    have h8 : ((8 : Nat) : Int) = 8 := rfl
    rw [h8] at h1
    have hm : memRead (memWrite mem 0 (encodeTs abi p)) 0 8 = encodeTs abi p := by
      have := memRead_memWrite mem 0 (encodeTs abi p)
      rwa [encodeTs_length] at this
    obtain ⟨hpr, hp0⟩ := hp p (by simp)
    simp only [pongs_loop, h1, hm, decodeTs_encodeTs, wrapTs_of_inRange abi p hpr]
    split
    · simp
    · simp only [ne_eq, hp0, not_false_eq_true, if_true]
      apply ih f _ _ rest
      · simpa [send, timer, World.afterRecv] using (by
          unfold send; split <;> exact g1 :
          Good (send (timer abi (w.afterRecv inbox' k log)).2
            (encodeTs abi (timer abi (w.afterRecv inbox' k log)).1)).2.inbox)
      · have : stream (send (timer abi (w.afterRecv inbox' k log)).2
            (encodeTs abi (timer abi (w.afterRecv inbox' k log)).1)).2.inbox =
            (ps.map (encodeTs abi)).flatten ++ encodeTs abi 0 ++ rest := by
          unfold send; split <;> exact s1
        exact this
      · exact fun q hq => hp q (by simp [hq])
      · simp at hfuel; omega

theorem pongs_loop_starved (abi : Abi) (rfuel : Nat) (pings : List Int) :
    ∀ (fuel : Nat) (w : World) (mem : Mem) (tail : List Nat),
      Good w.inbox →
      stream w.inbox = (pings.map (encodeTs abi)).flatten ++ tail → tail.length < 8 →
      (∀ p ∈ pings, InRangeTs abi p ∧ p ≠ 0) →
      (∀ i < pings.length, w.sendFails (w.sends + i) = false) →
      pongs_loop abi rfuel fuel w mem = Outcome.diverged := by
  induction pings with
  | nil =>
    intro fuel w mem tail hg hs ht _ _
    cases fuel with
    | zero => rfl
    | succ f =>
      have hd : receive_data rfuel w mem 0 8 = Outcome.diverged := by
        have := receive_loop_starved w.inbox w mem 0 8 rfuel rfl hg
          (by rw [hs]; simpa using ht) (by norm_num)
        exact this
      simp [pongs_loop, hd]
  | cons p ps ih =>
    intro fuel w mem tail hg hs ht hp hsend
    cases fuel with
    | zero => rfl
    | succ f =>
      rcases pongs_loop_step_cases abi rfuel f w mem (encodeTs abi p)
          ((ps.map (encodeTs abi)).flatten ++ tail) hg
          (by rw [hs]; simp) (encodeTs_length abi p) with hd | ⟨inbox', k, log, g, s, hk, e⟩
      · exact hd
      · have hf : w.sendFails w.sends = false := by simpa using hsend 0 (by simp)
        obtain ⟨hpr, hp0⟩ := hp p (by simp)
        rw [decodeTs_encodeTs, wrapTs_of_inRange abi p hpr] at e
        simp only [hf, ne_eq, hp0, not_false_eq_true, if_true] at e
        simp only [Bool.false_eq_true, if_false] at e
        rw [e]
        exact ih f _ _ tail g s ht (fun q hq => hp q (by simp [hq]))
          (by
            intro i hi
            have := hsend (i + 1) (by simp; omega)
            simpa [World.afterReply, Nat.add_assoc, Nat.add_comm 1 i] using this)

/-! # The claims -/

/-! ## C1: which sample `pings` retains -/

/-- C1, amended. A session of `pings` with `sample_size = N` whose `N`
rounds have send times `t0_i`, reply values `r_i` and round-trip
durations `d_i ≥ 0`, the host name and the replies arriving in any
segmentation and every ping being sent. If at least one round has
`d_i ≤ 1,000,000,000` (so `N ≥ 1`), the rounds split as
`pre ++ k :: post` where `k` has the smallest duration and is the last
round that has it; `pings` returns with `*local_time = t0_k + d_k / 2`
and `*remote_time = r_k` whatever the two cells held before, and
`master` prints these two values (as `%lld`). -/
theorem pings_retains_last_minimum (abi : Abi) (fuel : Nat) (w : World) (mem : Mem)
    (host : Int) (h rest : List Nat) (rounds : List Round)
    (hgood : Good w.inbox)
    (hstream : stream w.inbox =
      encodeInt abi (h.length : Int) ++ h ++
        (rounds.map fun x => encodeTs abi x.r).flatten ++ rest)
    (hh : h.length < 2 ^ 31)
    (hsend : ∀ i < rounds.length, w.sendFails (w.sends + i) = false)
    (hclock : clockShows abi w w.timers rounds)
    (hrange : ∀ x ∈ rounds, 0 ≤ x.d ∧ InRangeTs abi x.d ∧ InRangeTs abi x.r)
    (hf8 : 8 ≤ fuel) (hfh : h.length ≤ fuel)
    (hcap : ∃ x ∈ rounds, x.d ≤ 1000000000) :
    ∃ pre k post, rounds = pre ++ k :: post ∧
      (∀ x ∈ pre, k.d ≤ x.d) ∧ (∀ x ∈ post, k.d < x.d) ∧
      (∀ lt rt : Int, ∃ mem' w',
        pings abi fuel (rounds.length : Int) w mem host lt rt =
          Outcome.returned (mem', k.t0 + k.d / 2, k.r) w') ∧
      (∃ mem' w' lh rh,
        master abi fuel (rounds.length : Int) w mem host = Outcome.returned mem' w' ∧
        w'.stdout = w.stdout ++
          [{ localHost := lh, localTime := toSigned 64 (k.t0 + k.d / 2),
             remoteHost := rh, remoteTime := toSigned 64 k.r }]) := by
  have hr : ∀ x ∈ rounds, InRangeTs abi x.r := fun x hx => (hrange x hx).2.2
  obtain ⟨pre, k, post, e, _, hpre, hpost, _⟩ :=
    last_minimum abi w w.timers rounds 0 0 hclock hrange hcap
  refine ⟨pre, k, post, e, hpre, hpost, ?_, ?_⟩
  · intro lt rt
    obtain ⟨w1, e1, _⟩ :=
      pings_ok abi fuel (rounds.length : Int) w mem host lt rt h rest rounds (by simp)
        hgood hstream hh hsend hclock hr hf8 hfh
    obtain ⟨pre', k', post', e', _, hpre', hpost', hres⟩ :=
      last_minimum abi w w.timers rounds lt rt hclock hrange hcap
    have hkk : k' = k :=
      last_minimum_unique pre post pre' post' k k' (e ▸ e') hpre hpost hpre' hpost'
    rw [hres, hkk] at e1
    exact ⟨_, _, e1⟩
  · obtain ⟨w', e1, e2⟩ :=
      master_ok abi fuel (rounds.length : Int) w mem host h rest rounds (by simp) hgood
        hstream hh hsend hclock hr hf8 hfh
    obtain ⟨pre', k', post', e', _, hpre', hpost', hres⟩ :=
      last_minimum abi w w.timers rounds 0 0 hclock hrange hcap
    have hkk : k' = k :=
      last_minimum_unique pre post pre' post' k k' (e ▸ e') hpre hpost hpre' hpost'
    rw [hres, hkk] at e2
    exact ⟨_, w', _, _, e1, e2⟩

/-- C1 at scenario A (slave clock fixed at 777): the retained sample is
that of the fourth round, and `master` prints 405 and 777. -/
theorem pings_retains_last_minimum_witness :
    (∃ pre k post, scenarioA = pre ++ k :: post ∧
      (∀ x ∈ pre, k.d ≤ x.d) ∧ (∀ x ∈ post, k.d < x.d) ∧
      (∀ lt rt : Int, ∃ mem' w',
        pings exampleAbi 8 (scenarioA.length : Int) scenarioAWorld zeroMem 0 lt rt =
          Outcome.returned (mem', k.t0 + k.d / 2, k.r) w') ∧
      (∃ mem' w' lh rh,
        master exampleAbi 8 (scenarioA.length : Int) scenarioAWorld zeroMem 0 =
          Outcome.returned mem' w' ∧
        w'.stdout = scenarioAWorld.stdout ++
          [{ localHost := lh, localTime := toSigned 64 (k.t0 + k.d / 2),
             remoteHost := rh, remoteTime := toSigned 64 k.r }])) ∧
    (master exampleAbi 8 5 scenarioAWorld zeroMem 0).printed =
      some [{ localHost := [109], localTime := 405, remoteHost := [104, 105],
              remoteTime := 777 }] :=
  ⟨pings_retains_last_minimum exampleAbi 8 scenarioAWorld zeroMem 0 [104, 105] [] scenarioA
      (by decide) (by decide) (by decide) (by decide) (by decide) (by decide) (by decide)
      (by decide) (by decide),
    by decide⟩

/-- C1 as stated fails: with `sample_size = 1` and a single round of
duration 2,000,000,000 (send time 100, reply 777) the first round is not
retained. `pings` leaves both output cells at their initial `0`, where
the claim has `100 + 2000000000 / 2` and `777`, and `master` prints
`0` and `0`. -/
theorem pings_first_round_above_cap :
    clockShows exampleAbi slowWorld 0 [⟨100, 2000000000, 777⟩] ∧
    stream slowWorld.inbox =
      encodeInt exampleAbi 2 ++ [104, 105] ++ encodeTs exampleAbi 777 ∧
    (pings exampleAbi 8 1 slowWorld zeroMem 0 0 0).times = some (0, 0) ∧
    (pings exampleAbi 8 1 slowWorld zeroMem 0 0 0).times ≠
      some (100 + 2000000000 / 2, 777) ∧
    (master exampleAbi 8 1 slowWorld zeroMem 0).printed =
      some [{ localHost := [109], localTime := 0, remoteHost := [104, 105],
              remoteTime := 0 }] := by
  decide

/-! ## C2: the midpoint of one round -/

/-- C2. One round of `ping_wait_pong`, with `t0` the clock reading taken
before the send and `t1` the one taken after the reply has been
received, `t0 ≤ t1`, and `t1 - t0` representable in `timestamp_t`.
(1) On a socket whose every `recv` hands over at least one byte, if the
call returns, it returns `delta = t1 - t0` and
`local = t0 + delta / 2` (integer division), and `t0 ≤ local ≤ t1`.
(2) When the send succeeds and the eight bytes of the reply arrive, in
any segmentation, the call does return, and `remote` is the timestamp
held by the eight bytes received. -/
theorem ping_wait_pong_midpoint (abi : Abi) (fuel : Nat) (w : World) (t0 t1 : Int)
    (ht0 : timerAt abi w w.timers = t0) (ht1 : timerAt abi w (w.timers + 1) = t1)
    (hle : t0 ≤ t1) (hno : InRangeTs abi (t1 - t0)) :
    (Good w.inbox → ∀ (s : Int × Int × Int) (w' : World),
      ping_wait_pong abi fuel w = Outcome.returned s w' →
      s.2.2 = t1 - t0 ∧ s.1 = t0 + (t1 - t0) / 2 ∧ t0 ≤ s.1 ∧ s.1 ≤ t1) ∧
    (∀ frame rest : List Nat, w.sendFails w.sends = false → Good w.inbox →
      stream w.inbox = frame ++ rest → frame.length = 8 → 8 ≤ fuel →
      ∃ w', ping_wait_pong abi fuel w =
        Outcome.returned (t0 + (t1 - t0) / 2, decodeTs abi frame, t1 - t0) w') := by
  have h0r : InRangeTs abi t0 := ht0 ▸ timerAt_inRange abi w _
  have h1r : InRangeTs abi t1 := ht1 ▸ timerAt_inRange abi w _
  constructor
  · intro _ s w' h
    obtain ⟨e1, e2⟩ := ping_wait_pong_values abi fuel w s w' h
    obtain ⟨hs, hb1, hb2⟩ := sample_of_le abi t0 t1 s.2.1 h0r h1r hle hno
    rw [ht0, ht1, hs] at e1 e2
    simp only at e1 e2
    exact ⟨e2, e1, by rw [e1]; exact hb1, by rw [e1]; exact hb2⟩
  · intro frame rest hsend hgood hstream hlen hfuel
    obtain ⟨inbox', k, log, h1, _, _, _, _⟩ :=
      ping_wait_pong_ok abi fuel w frame rest hsend hgood hstream hlen hfuel
    obtain ⟨hs, _, _⟩ := sample_of_le abi t0 t1 (decodeTs abi frame) h0r h1r hle hno
    rw [ht0, ht1, hs] at h1
    exact ⟨_, h1⟩

/-- C2 at a concrete round: clock readings 100 and 140, reply 777
arriving in two segments. -/
theorem ping_wait_pong_midpoint_witness :
    (∀ (s : Int × Int × Int) (w' : World),
      ping_wait_pong exampleAbi 8 oneRoundWorld = Outcome.returned s w' →
      s.2.2 = 140 - 100 ∧ s.1 = 100 + (140 - 100) / 2 ∧ 100 ≤ s.1 ∧ s.1 ≤ 140) ∧
    ∃ w', ping_wait_pong exampleAbi 8 oneRoundWorld =
      Outcome.returned (100 + (140 - 100) / 2,
        decodeTs exampleAbi [9, 3, 0, 0, 0, 0, 0, 0], 140 - 100) w' :=
  ⟨(ping_wait_pong_midpoint exampleAbi 8 oneRoundWorld 100 140
      (by decide) (by decide) (by decide) (by decide)).1 (by decide),
   (ping_wait_pong_midpoint exampleAbi 8 oneRoundWorld 100 140
      (by decide) (by decide) (by decide) (by decide)).2 [9, 3, 0, 0, 0, 0, 0, 0] [55]
      (by decide) (by decide) (by decide) (by decide) (by decide)⟩

/-! ## C3: the slave serves until the zero frame -/

/-- C3, amended. After the hostname announce, while every `send`
succeeds: (1) for a stream of frames `p_1 .. p_n, 0, ...` with all `p_i`
non-zero, arriving in any segmentation, `pongs` returns; it has sent
exactly one reply per frame received, the terminating zero frame
included, in receipt order, the reply to the `i`-th frame being the
`i`-th clock reading (`n + 1` replies and `n + 1` clock readings in
all), and what follows the first zero frame is left unread. (2) For a
stream that holds only non-zero frames (and fewer than eight further
bytes) before the peer closes, `pongs` never returns: it does not stop
after a non-zero frame. -/
theorem pongs_serves_until_zero (abi : Abi) (ws : World) (pings : List Int)
    (hgood : Good ws.inbox) (hp : ∀ p ∈ pings, InRangeTs abi p ∧ p ≠ 0)
    (hsend : ∀ i, ws.sendFails i = false) :
    (∀ (rest : List Nat) (fuel : Nat),
      stream ws.inbox = (pings.map (encodeTs abi)).flatten ++ encodeTs abi 0 ++ rest →
      8 ≤ fuel → pings.length < fuel →
      ∃ w', pongs abi fuel ws = Outcome.returned () w' ∧
        w'.outbox = (pongs_hostname abi ws).outbox ++
          replies abi ws ws.timers (pings.length + 1) ∧
        w'.timers = ws.timers + (pings.length + 1) ∧
        stream w'.inbox = rest) ∧
    (∀ (tail : List Nat) (fuel : Nat),
      stream ws.inbox = (pings.map (encodeTs abi)).flatten ++ tail → tail.length < 8 →
      pongs abi fuel ws = Outcome.diverged) := by
  obtain ⟨fi, ft, fc, ff, fs, _⟩ := pongs_hostname_frame abi ws
  constructor
  · intro rest fuel hs hf8 hfl
    have hnd := pongs_loop_returns abi fuel hf8 pings fuel (pongs_hostname abi ws) zeroMem rest
      (by rw [fi]; exact hgood) (by rw [fi]; exact hs) hp hfl
    rcases pongs_loop_serves abi fuel pings fuel (pongs_hostname abi ws) zeroMem rest
        (by rw [fi]; exact hgood) (by rw [fi]; exact hs) hp
        (by intro i _; rw [ff]; exact hsend _) with hd | ⟨w', e, _, s, t, _, _, o, _⟩
    · exact absurd hd hnd
    · refine ⟨w', e, ?_, by rw [t, ft], s⟩
      rw [o, ft, replies_congr abi ws (pongs_hostname abi ws) fc]
  · intro tail fuel hs ht
    exact pongs_loop_starved abi fuel pings fuel (pongs_hostname abi ws) zeroMem tail
      (by rw [fi]; exact hgood) (by rw [fi]; exact hs) ht hp
      (by intro i _; rw [ff]; exact hsend _)

/-- C3 at concrete streams: the frames 7, 9, 0 followed by one more
byte, and the frames 7, 9 alone. -/
theorem pongs_serves_until_zero_witness :
    (∃ w', pongs exampleAbi 8
          (slaveWorld [Event.data (encodeTs exampleAbi 7 ++ encodeTs exampleAbi 9),
            Event.data (encodeTs exampleAbi 0 ++ [1])]) = Outcome.returned () w' ∧
        w'.outbox = (pongs_hostname exampleAbi
            (slaveWorld [Event.data (encodeTs exampleAbi 7 ++ encodeTs exampleAbi 9),
              Event.data (encodeTs exampleAbi 0 ++ [1])])).outbox ++
          replies exampleAbi
            (slaveWorld [Event.data (encodeTs exampleAbi 7 ++ encodeTs exampleAbi 9),
              Event.data (encodeTs exampleAbi 0 ++ [1])]) 0 3 ∧
        w'.timers = 3 ∧ stream w'.inbox = [1]) ∧
    pongs exampleAbi 1000
        (slaveWorld [Event.data (encodeTs exampleAbi 7 ++ encodeTs exampleAbi 9)]) =
      Outcome.diverged :=
  ⟨(pongs_serves_until_zero exampleAbi
      (slaveWorld [Event.data (encodeTs exampleAbi 7 ++ encodeTs exampleAbi 9),
        Event.data (encodeTs exampleAbi 0 ++ [1])]) [7, 9]
      (by decide) (by decide) (fun _ => rfl)).1 [1] 8 (by decide) (by decide) (by decide),
   (pongs_serves_until_zero exampleAbi
      (slaveWorld [Event.data (encodeTs exampleAbi 7 ++ encodeTs exampleAbi 9)]) [7, 9]
      (by decide) (by decide) (fun _ => rfl)).2 [] 1000 (by decide) (by decide)⟩

/-- C3 as stated fails in two places. (1) Frames 7 then 0, every send
succeeding: one ping (non-zero frame) has been received, yet two replies
have been sent after the two messages of the hostname announce, the
second one answering the zero frame. (2) Frame 7 with the reply `send`
failing: the slave stops, through `exit(1)`, after a non-zero frame; the
zero frame that follows is never read. -/
theorem pongs_replies_not_one_per_ping :
    ((pongs exampleAbi 8
        (slaveWorld [Event.data (encodeTs exampleAbi 7 ++ encodeTs exampleAbi 0)])).final.map
        fun w => w.outbox.drop 2) =
      some [encodeTs exampleAbi 50, encodeTs exampleAbi 51] ∧
    (pongs exampleAbi 8
        (slaveWorldSendFails
          [Event.data (encodeTs exampleAbi 7 ++ encodeTs exampleAbi 0)])).status = some 1 ∧
    ((pongs exampleAbi 8
        (slaveWorldSendFails
          [Event.data (encodeTs exampleAbi 7 ++ encodeTs exampleAbi 0)])).final.map
        fun w => stream w.inbox) = some (encodeTs exampleAbi 0) := by
  decide

/-! ## C4: `receive_data` reassembles a payload -/

/-- C4. For a payload of `size` bytes (any `size` an `int` can hold, zero
included) that the transport delivers split into non-empty segments in
any way, `receive_data` returns; on return the `size` bytes starting at
`buffer` are the payload in order, no byte outside the buffer has
changed, and exactly the payload has been taken from the stream: what
followed it is still unread. Short reads are retried, never reported as
a failure. -/
theorem receive_data_reassembles (w : World) (mem : Mem) (buffer : Int)
    (payload rest : List Nat) (fuel : Nat)
    (hgood : Good w.inbox) (hstream : stream w.inbox = payload ++ rest)
    (hsize : payload.length < 2 ^ 31) (hfuel : payload.length ≤ fuel) :
    ∃ mem' w',
      receive_data fuel w mem buffer (payload.length : Int) = Outcome.returned mem' w' ∧
      memRead mem' buffer payload.length = payload ∧
      (∀ x, x < buffer ∨ buffer + (payload.length : Int) ≤ x → mem' x = mem x) ∧
      stream w'.inbox = rest ∧ Good w'.inbox ∧
      w'.outbox = w.outbox ∧ w'.sends = w.sends ∧ w'.timers = w.timers ∧
      w'.stdout = w.stdout := by
  obtain ⟨inbox', k, log, h1, h2, h3, _, _⟩ :=
    receive_data_good w mem buffer payload rest fuel hgood hstream hfuel hsize
  refine ⟨_, _, h1, memRead_memWrite _ _ _, ?_, h3, h2, rfl, rfl, rfl, rfl⟩
  intro x hx
  rcases hx with hx | hx
  · exact memWrite_below _ _ _ _ hx
  · exact memWrite_above _ _ _ _ hx

theorem receive_data_reassembles_witness :
    ∃ mem' w',
      receive_data 3 oneByteWorld zeroMem 100 (([7, 8, 9] : List Nat).length : Int) =
        Outcome.returned mem' w' ∧
      memRead mem' 100 ([7, 8, 9] : List Nat).length = [7, 8, 9] ∧
      (∀ x, x < 100 ∨ 100 + (([7, 8, 9] : List Nat).length : Int) ≤ x → mem' x = zeroMem x) ∧
      stream w'.inbox = [10] ∧ Good w'.inbox ∧
      w'.outbox = oneByteWorld.outbox ∧ w'.sends = oneByteWorld.sends ∧
      w'.timers = oneByteWorld.timers ∧ w'.stdout = oneByteWorld.stdout :=
  receive_data_reassembles oneByteWorld zeroMem 100 [7, 8, 9] [10] 3
    (by decide) (by decide) (by decide) (by decide)

/-! ## C5: the hostname announce -/

/-- C5. Hostname round trip. The slave's `gethostname` buffer holds the
string `h` (no zero byte in it, then the terminator, then anything), of
any length `L ≥ 0` an `int` can hold, and its two announce sends succeed:
it puts on the wire the four bytes of `L` and then the `L` bytes of `h`,
no terminator. The master reads these bytes in any segmentation, followed
by whatever comes next: the first part of `pings` returns, the `L` bytes
at `remote_hostname` are `h`, the byte after them is the terminator, so
the C string stored there is `h`; nothing beyond the announce has been
consumed, and `pings` with no round to run returns that same memory. -/
theorem hostname_round_trip (abi : Abi) (fuel : Nat) (ws wm : World) (mem : Mem)
    (host lt rt : Int) (h junk rest : List Nat)
    (hnz : ∀ b ∈ h, b ≠ 0) (hlen : h.length < 2 ^ 31)
    (hbuf : ws.hostbuf = h ++ 0 :: junk)
    (hs1 : ws.sendFails ws.sends = false) (hs2 : ws.sendFails (ws.sends + 1) = false)
    (hfresh : ws.outbox = [])
    (hgood : Good wm.inbox)
    (hwire : stream wm.inbox = (pongs_hostname abi ws).outbox.flatten ++ rest)
    (hf4 : 8 ≤ fuel) (hfh : h.length < fuel) :
    (pongs_hostname abi ws).outbox = [encodeInt abi (h.length : Int), h] ∧
    ∃ mem' wm',
      pings_hostname abi fuel wm mem host = Outcome.returned mem' wm' ∧
      memRead mem' host h.length = h ∧ mem' (host + (h.length : Int)) = 0 ∧
      cstring mem' fuel host = h ∧ stream wm'.inbox = rest ∧
      ∃ wm'', pings abi fuel 0 wm mem host lt rt = Outcome.returned (mem', lt, rt) wm'' := by
  have hout : (pongs_hostname abi ws).outbox = [encodeInt abi (h.length : Int), h] := by
    rw [pongs_hostname_ok abi ws h junk hnz hlen hbuf hs1 hs2]
    simp [hfresh]
  have hstream : stream wm.inbox = encodeInt abi (h.length : Int) ++ h ++ rest := by
    rw [hwire, hout]; simp
  refine ⟨hout, ?_⟩
  obtain ⟨inbox', k, log, e1, _, s1⟩ :=
    pings_hostname_ok abi fuel wm mem host h rest hgood hstream hlen (by omega) (by omega)
  refine ⟨_, _, e1, ?_, ?_, cstring_stored h mem host fuel hfh hnz, s1, ?_⟩
  · rw [memRead_memStore_outside _ _ _ _ _ (Or.inr (le_refl _))]
    exact memRead_memWrite mem host h
  · simp [memStore]
  · obtain ⟨w', e2, _⟩ :=
      pings_ok abi fuel 0 wm mem host lt rt h rest [] rfl hgood (by simpa using hstream)
        hlen (by intro i hi; simp at hi) trivial (by intro x hx; simp at hx) hf4 (by omega)
    exact ⟨w', e2⟩

/-- C5 at two concrete hosts: the empty name (`L = 0`), and the name
`hi` delivered one byte at a time. -/
theorem hostname_round_trip_witness :
    ((pongs_hostname exampleAbi (slaveNamed [0, 7, 7])).outbox =
        [encodeInt exampleAbi ((([] : List Nat).length : Nat) : Int), []] ∧
      ∃ mem' wm',
        pings_hostname exampleAbi 8 (masterWorld [Event.data [0, 0, 0], Event.data [0, 5]])
          zeroMem 40 = Outcome.returned mem' wm' ∧
        memRead mem' 40 ([] : List Nat).length = [] ∧
        mem' (40 + ((([] : List Nat).length : Nat) : Int)) = 0 ∧
        cstring mem' 8 40 = [] ∧ stream wm'.inbox = [5] ∧
        ∃ wm'', pings exampleAbi 8 0 (masterWorld [Event.data [0, 0, 0], Event.data [0, 5]])
          zeroMem 40 1 2 = Outcome.returned (mem', 1, 2) wm'') ∧
    ((pongs_hostname exampleAbi (slaveNamed [104, 105, 0, 7])).outbox =
        [encodeInt exampleAbi ((([104, 105] : List Nat).length : Nat) : Int), [104, 105]] ∧
      ∃ mem' wm',
        pings_hostname exampleAbi 8
          (masterWorld [Event.data [2], Event.data [0], Event.data [0], Event.data [0],
            Event.data [104], Event.data [105]])
          zeroMem 40 = Outcome.returned mem' wm' ∧
        memRead mem' 40 ([104, 105] : List Nat).length = [104, 105] ∧
        mem' (40 + ((([104, 105] : List Nat).length : Nat) : Int)) = 0 ∧
        cstring mem' 8 40 = [104, 105] ∧ stream wm'.inbox = [] ∧
        ∃ wm'', pings exampleAbi 8 0
          (masterWorld [Event.data [2], Event.data [0], Event.data [0], Event.data [0],
            Event.data [104], Event.data [105]])
          zeroMem 40 1 2 = Outcome.returned (mem', 1, 2) wm'') :=
  ⟨hostname_round_trip exampleAbi 8 (slaveNamed [0, 7, 7])
      (masterWorld [Event.data [0, 0, 0], Event.data [0, 5]]) zeroMem 40 1 2 [] [7, 7] [5]
      (by decide) (by decide) (by decide) (by decide) (by decide) (by decide) (by decide)
      (by decide) (by decide) (by decide),
   hostname_round_trip exampleAbi 8 (slaveNamed [104, 105, 0, 7])
      (masterWorld [Event.data [2], Event.data [0], Event.data [0], Event.data [0],
        Event.data [104], Event.data [105]]) zeroMem 40 1 2 [104, 105] [7] []
      (by decide) (by decide) (by decide) (by decide) (by decide) (by decide) (by decide)
      (by decide) (by decide) (by decide)⟩

/-! ## C6: failures of `send` and `recv` in a master session -/

/-- C6 evaluated where it fails, `sample_size = 1`, slave `hi`, reply
777. (1) The `send` of the terminate frame returns `-1`: `master`
returns normally and prints its result line; nothing reports the session
as failed. (2) The first `recv` for the reply returns `-1`:
`receive_data` takes `-1` for a byte count, steps the buffer back by one
and asks for nine bytes; nothing ends the session, and with `tremote`
in a memory of its own `master` goes on to print `remote_time = 3`,
read from the shifted bytes, where the slave sent 777 (in the program
the nine bytes start below `tremote`, so the values it prints depend on
the compiler). (3) Only the failure of a ping `send` is fatal: `exit(1)` with
nothing printed. -/
theorem master_io_failures :
    ((master exampleAbi 8 1 terminateFailsWorld zeroMem 0).printed =
        some [{ localHost := [109], localTime := 100, remoteHost := [104, 105],
                remoteTime := 777 }] ∧
      (master exampleAbi 8 1 terminateFailsWorld zeroMem 0).status = none) ∧
    ((receive_body (masterWorld [Event.error]) zeroMem
          { received := 0, buffer := 0, size := 8 }).2.2 =
        { received := 0, buffer := -1, size := 9 } ∧
      (master exampleAbi 9 1 recvErrorWorld zeroMem 0).printed =
        some [{ localHost := [109], localTime := 100, remoteHost := [104, 105],
                remoteTime := 3 }] ∧
      (master exampleAbi 9 1 recvErrorWorld zeroMem 0).status = none) ∧
    ((master exampleAbi 8 1 pingFailsWorld zeroMem 0).status = some 1 ∧
      (master exampleAbi 8 1 pingFailsWorld zeroMem 0).printed = some []) := by
  decide

/-! ## C7: the zero frame arrives first -/

/-- C7, amended. When the first timestamp frame the slave receives has
value 0, `pongs` runs the body of its serving loop exactly once: it
reads the clock once, sends that reading as a reply, and then leaves the
loop without any further receive (what follows the zero frame stays
unread). When the reply is sent it ends by returning, the reply being
the last message on the wire; when that `send` fails it ends through
`exit(1)` with nothing sent after the announce. The clock has been read
once in both cases. -/
theorem pongs_zero_first (abi : Abi) (fuel : Nat) (ws : World) (rest : List Nat)
    (hgood : Good ws.inbox) (hstream : stream ws.inbox = encodeTs abi 0 ++ rest)
    (hfuel : 8 ≤ fuel) :
    ∃ w', (pongs abi fuel ws = Outcome.returned () w' ∨
          pongs abi fuel ws = Outcome.exited 1 w') ∧
      w'.timers = ws.timers + 1 ∧ stream w'.inbox = rest ∧
      (ws.sendFails (ws.sends + 2) = false →
        pongs abi fuel ws = Outcome.returned () w' ∧
        w'.outbox = (pongs_hostname abi ws).outbox ++
          [encodeTs abi (timerAt abi ws ws.timers)]) ∧
      (ws.sendFails (ws.sends + 2) = true →
        pongs abi fuel ws = Outcome.exited 1 w' ∧
        w'.outbox = (pongs_hostname abi ws).outbox) := by
  obtain ⟨fi, ft, fc, ff, fs, _⟩ := pongs_hostname_frame abi ws
  obtain ⟨f, rfl⟩ : ∃ f, fuel = f + 1 := ⟨fuel - 1, by omega⟩
  have hg' : Good (pongs_hostname abi ws).inbox := by rw [fi]; exact hgood
  have hs' : stream (pongs_hostname abi ws).inbox = encodeTs abi 0 ++ rest := by
    rw [fi]; exact hstream
  have hnd := pongs_loop_returns abi (f + 1) hfuel [] (f + 1) (pongs_hostname abi ws)
    zeroMem rest hg' (by simpa using hs') (by intro p hp; simp at hp) (by simp)
  rcases pongs_loop_step_cases abi (f + 1) f (pongs_hostname abi ws) zeroMem
      (encodeTs abi 0) rest hg' hs' (encodeTs_length abi 0) with hd | ⟨inbox', k, log, g, s, hk, e⟩
  · exact absurd hd hnd
  · rw [decodeTs_encodeTs, wrapTs_zero] at e
    simp only [ne_eq, not_true_eq_false, if_false] at e
    rw [fs, ff] at e
    by_cases hf : ws.sendFails (ws.sends + 2) = true
    · simp only [hf, if_true] at e
      refine ⟨_, Or.inr e, by simp [ft], s, ?_, ?_⟩
      · intro h; rw [h] at hf; simp at hf
      · intro _; exact ⟨e, rfl⟩
    · have hf' : ws.sendFails (ws.sends + 2) = false := by simpa using hf
      simp only [hf', Bool.false_eq_true, if_false] at e
      refine ⟨_, Or.inl e, by simp [World.afterReply, ft], s, ?_, ?_⟩
      · intro _
        refine ⟨e, ?_⟩
        simp [World.afterReply, ft, timerAt, fc]
      · intro h; rw [h] at hf'; simp at hf'

/-- C7 at a concrete stream, the zero frame first and then the bytes 1,
2: with every `send` succeeding the slave returns after one clock
reading, its reply 50 sent; with the reply `send` failing it leaves
through `exit(1)` after one clock reading, nothing sent after the
announce. -/
theorem pongs_zero_first_witness :
    (∃ w', pongs exampleAbi 8 (slaveWorld [Event.data (encodeTs exampleAbi 0 ++ [1, 2])]) =
          Outcome.returned () w' ∧
        w'.timers = 1 ∧ stream w'.inbox = [1, 2] ∧
        w'.outbox = [[2, 0, 0, 0], [104, 105], encodeTs exampleAbi 50]) ∧
    (∃ w', pongs exampleAbi 8
          (slaveWorldSendFails [Event.data (encodeTs exampleAbi 0 ++ [1, 2])]) =
          Outcome.exited 1 w' ∧
        w'.timers = 1 ∧ stream w'.inbox = [1, 2] ∧
        w'.outbox = [[2, 0, 0, 0], [104, 105]]) := by
  constructor
  · obtain ⟨w', _, ht, hs, hret, _⟩ :=
      pongs_zero_first exampleAbi 8
        (slaveWorld [Event.data (encodeTs exampleAbi 0 ++ [1, 2])]) [1, 2]
        (by decide) (by decide) (by decide)
    obtain ⟨e, ho⟩ := hret (by decide)
    refine ⟨w', e, ht, hs, ?_⟩
    rw [ho]; decide
  · obtain ⟨w', _, ht, hs, _, hexit⟩ :=
      pongs_zero_first exampleAbi 8
        (slaveWorldSendFails [Event.data (encodeTs exampleAbi 0 ++ [1, 2])]) [1, 2]
        (by decide) (by decide) (by decide)
    obtain ⟨e, ho⟩ := hexit (by decide)
    refine ⟨w', e, ht, hs, ?_⟩
    rw [ho]; decide

/-- C7 as stated fails: when the very first frame is the zero frame, the
slave has called `timer` once, not zero times, by the time it leaves the
loop, and it has sent that clock reading (50) as a reply. -/
theorem pongs_zero_first_reads_clock :
    ((pongs exampleAbi 8 (slaveWorld [Event.data (encodeTs exampleAbi 0)])).final.map
        fun w => w.timers) = some 1 ∧
    ((pongs exampleAbi 8 (slaveWorld [Event.data (encodeTs exampleAbi 0)])).final.map
        fun w => w.timers) ≠ some 0 ∧
    ((pongs exampleAbi 8 (slaveWorld [Event.data (encodeTs exampleAbi 0)])).final.map
        fun w => w.outbox.drop 2) = some [encodeTs exampleAbi 50] := by
  decide

/-! ## C8: master and slave joined by one connection -/

/-- C8, amended. The master engine `pings` with `sample_size = 1` and the
slave engine `pongs` over one new connection, every `send` succeeding on
both sides, the master's first clock reading `t0` non-zero, and each
socket delivering, in any segmentation, the bytes of the frames named
below. Both engines return. The master has sent exactly the ping `t0`
and then the terminate frame `0`. The slave has sent its hostname
announce and then two timestamp frames: the pong answering the ping and
a further reply answering the terminate frame, each the clock reading
taken after the receive. What each side received is exactly what the
other side sent. The slave has read the clock twice, has read exactly the
two frames and nothing beyond the terminate frame; the master has left
the slave's last reply unread. -/
theorem session_single_round (abi : Abi) (fuel : Nat) (wm ws : World) (mem : Mem)
    (host : Int) (h junk : List Nat)
    (hfm : wm.outbox = []) (hfs : ws.outbox = [])
    (hsm : ∀ i, wm.sendFails i = false) (hss : ∀ i, ws.sendFails i = false)
    (hnz : ∀ b ∈ h, b ≠ 0) (hlen : h.length < 2 ^ 31) (hbuf : ws.hostbuf = h ++ 0 :: junk)
    (ht0 : timerAt abi wm wm.timers ≠ 0)
    (hgm : Good wm.inbox) (hgs : Good ws.inbox)
    (hws : stream ws.inbox =
      encodeTs abi (timerAt abi wm wm.timers) ++ encodeTs abi 0)
    (hwm : stream wm.inbox =
      encodeInt abi (h.length : Int) ++ h ++ encodeTs abi (timerAt abi ws ws.timers) ++
        encodeTs abi (timerAt abi ws (ws.timers + 1)))
    (hf8 : 8 ≤ fuel) (hfh : h.length ≤ fuel) :
    ∃ r wm' ws',
      pings abi fuel 1 wm mem host 0 0 = Outcome.returned r wm' ∧
      pongs abi fuel ws = Outcome.returned () ws' ∧
      wm'.outbox = [encodeTs abi (timerAt abi wm wm.timers), encodeTs abi 0] ∧
      ws'.outbox = [encodeInt abi (h.length : Int), h,
        encodeTs abi (timerAt abi ws ws.timers),
        encodeTs abi (timerAt abi ws (ws.timers + 1))] ∧
      ws'.timers = ws.timers + 2 ∧
      stream ws'.inbox = [] ∧
      stream wm'.inbox = encodeTs abi (timerAt abi ws (ws.timers + 1)) ∧
      Session abi fuel 1 wm ws mem host wm'.outbox ws'.outbox := by
  -- the slave serves the ping and the terminate frame
  obtain ⟨fi, ft, fc, ff, fs, _⟩ := pongs_hostname_frame abi ws
  have hsin : stream (pongs_hostname abi ws).inbox =
      ([timerAt abi wm wm.timers].map (encodeTs abi)).flatten ++ encodeTs abi 0 ++ [] := by
    rw [fi, hws]; simp
  have hping : ∀ p ∈ [timerAt abi wm wm.timers], InRangeTs abi p ∧ p ≠ 0 := by
    intro p hp
    simp at hp
    subst hp
    exact ⟨timerAt_inRange abi wm _, ht0⟩
  have hnd := pongs_loop_returns abi fuel hf8 [timerAt abi wm wm.timers] fuel
    (pongs_hostname abi ws) zeroMem [] (by rw [fi]; exact hgs) hsin hping
    (by simp; omega)
  have hho := pongs_hostname_ok abi ws h junk hnz hlen hbuf (hss _) (hss _)
  rcases pongs_loop_serves abi fuel [timerAt abi wm wm.timers] fuel (pongs_hostname abi ws)
      zeroMem [] (by rw [fi]; exact hgs) hsin hping
      (by intro i _; rw [ff]; exact hss _) with hd | ⟨ws', e, _, s, t, _, _, o, _⟩
  · exact absurd hd hnd
  · have hpongs : pongs abi fuel ws = Outcome.returned () ws' := e
    have hsout : ws'.outbox = [encodeInt abi (h.length : Int), h,
        encodeTs abi (timerAt abi ws ws.timers),
        encodeTs abi (timerAt abi ws (ws.timers + 1))] := by
      rw [o, ft, replies_congr abi ws (pongs_hostname abi ws) fc, hho]
      simp [replies, hfs]
    -- the master reads the announce and the pong, not the last reply
    obtain ⟨wm', e2, _, s2, _, _, o2, _, _⟩ :=
      pings_ok abi fuel 1 wm mem host 0 0 h
        (encodeTs abi (timerAt abi ws (ws.timers + 1)))
        [{ t0 := timerAt abi wm wm.timers,
           d := timerAt abi wm (wm.timers + 1) - timerAt abi wm wm.timers,
           r := timerAt abi ws ws.timers }]
        rfl hgm (by rw [hwm]; simp) hlen (by intro i _; exact hsm _)
        ⟨rfl, by ring, trivial⟩
        (by
          intro x hx
          simp at hx
          subst hx
          exact timerAt_inRange abi ws _)
        hf8 hfh
    have hmout : wm'.outbox =
        [encodeTs abi (timerAt abi wm wm.timers), encodeTs abi 0] := by
      rw [o2, hfm, hsm]; simp
    refine ⟨_, wm', ws', e2, hpongs, hmout, hsout, by rw [t, ft]; rfl, s, s2, ?_⟩
    refine ⟨by rw [e2]; rfl, by rw [hpongs]; rfl, hgm, ?_, hgs, ?_⟩
    · rw [hwm, hsout]; simp
    · rw [hws, hmout]; simp

/-- C8 at a concrete session: master clock 100, 101, slave `hi` with
clock 50, 51, the frames arriving whole. -/
theorem session_single_round_witness :
    ∃ r wm' ws',
      pings exampleAbi 8 1 sessionMaster zeroMem 0 0 0 = Outcome.returned r wm' ∧
      pongs exampleAbi 8 sessionSlave = Outcome.returned () ws' ∧
      wm'.outbox = [encodeTs exampleAbi 100, encodeTs exampleAbi 0] ∧
      ws'.outbox = [[2, 0, 0, 0], [104, 105], encodeTs exampleAbi 50,
        encodeTs exampleAbi 51] ∧
      ws'.timers = 2 ∧ stream ws'.inbox = [] ∧
      stream wm'.inbox = encodeTs exampleAbi 51 := by
  obtain ⟨r, wm', ws', h1, h2, h3, h4, h5, h6, h7, _⟩ :=
    session_single_round exampleAbi 8 sessionMaster sessionSlave zeroMem 0 [104, 105] [0]
      (by decide) (by decide) (fun _ => rfl) (fun _ => rfl) (by decide) (by decide)
      (by decide) (by decide) (by decide) (by decide) (by decide) (by decide) (by decide)
      (by decide)
  exact ⟨r, wm', ws', h1, h2, h3, h4, h5, h6, h7⟩

/-- C8 as stated fails: in the session with `sample_size = 1`, master
clock reading 100 and slave clock readings 50, 51, the timestamp frames
on the wire after the hostname announce are four, not three: the ping
100 and the terminate frame 0 from the master, and from the slave the
pong 50 and then a second frame 51, its reply to the terminate frame. -/
theorem session_single_round_four_frames :
    Session exampleAbi 8 1 sessionMaster sessionSlave zeroMem 0
      [encodeTs exampleAbi 100, encodeTs exampleAbi 0]
      [[2, 0, 0, 0], [104, 105], encodeTs exampleAbi 50, encodeTs exampleAbi 51] ∧
    ((pongs exampleAbi 8 sessionSlave).sent.map fun out => out.drop 2) =
      some [encodeTs exampleAbi 50, encodeTs exampleAbi 51] ∧
    ((pongs exampleAbi 8 sessionSlave).sent.map fun out => (out.drop 2).length) ≠ some 1 ∧
    ((pongs exampleAbi 8 sessionSlave).final.map fun w => w.timers) = some 2 := by
  decide

/-! ## C9: the running minimum starts at 1,000,000,000 -/

/-- C9. `pings` starts its running minimum at 1,000,000,000. In a
session whose rounds have durations `d_i ≥ 0` (host name and replies
arriving in any segmentation, every ping sent): (1) if some round has
`d_i ≤ 1,000,000,000`, the output cells hold the sample of the last round
that attains the smallest duration; (2) if every round is longer than
1,000,000,000, `pings` returns with both cells unchanged and `master`
prints `0` and `0`; (3) the same holds when `sample_size ≤ 0`, where no
round is run at all. -/
theorem pings_initial_minimum (abi : Abi) (fuel : Nat) (sample_size : Int) (w : World)
    (mem : Mem) (host : Int) (h rest : List Nat) (rounds : List Round)
    (hsz : sample_size.toNat = rounds.length) (hgood : Good w.inbox)
    (hstream : stream w.inbox =
      encodeInt abi (h.length : Int) ++ h ++
        (rounds.map fun x => encodeTs abi x.r).flatten ++ rest)
    (hh : h.length < 2 ^ 31)
    (hsend : ∀ i < rounds.length, w.sendFails (w.sends + i) = false)
    (hclock : clockShows abi w w.timers rounds)
    (hrange : ∀ x ∈ rounds, 0 ≤ x.d ∧ InRangeTs abi x.d ∧ InRangeTs abi x.r)
    (hf8 : 8 ≤ fuel) (hfh : h.length ≤ fuel) :
    ((∃ x ∈ rounds, x.d ≤ 1000000000) →
      ∃ pre k post, rounds = pre ++ k :: post ∧
        (∀ x ∈ pre, k.d ≤ x.d) ∧ (∀ x ∈ post, k.d < x.d) ∧
        ∀ lt rt : Int, (pings abi fuel sample_size w mem host lt rt).times =
          some (k.t0 + k.d / 2, k.r)) ∧
    ((∀ x ∈ rounds, 1000000000 < x.d) →
      (∀ lt rt : Int, (pings abi fuel sample_size w mem host lt rt).times = some (lt, rt)) ∧
      ∃ lh rh, (master abi fuel sample_size w mem host).printed =
        some (w.stdout ++
          [{ localHost := lh, localTime := 0, remoteHost := rh, remoteTime := 0 }])) ∧
    (sample_size ≤ 0 →
      (∀ lt rt : Int, (pings abi fuel sample_size w mem host lt rt).times = some (lt, rt)) ∧
      ∃ lh rh, (master abi fuel sample_size w mem host).printed =
        some (w.stdout ++
          [{ localHost := lh, localTime := 0, remoteHost := rh, remoteTime := 0 }])) := by
  have hr : ∀ x ∈ rounds, InRangeTs abi x.r := fun x hx => (hrange x hx).2.2
  have hnone : (∀ x ∈ rounds, 1000000000 < x.d) →
      (∀ lt rt : Int, (pings abi fuel sample_size w mem host lt rt).times = some (lt, rt)) ∧
      ∃ lh rh, (master abi fuel sample_size w mem host).printed =
        some (w.stdout ++
          [{ localHost := lh, localTime := 0, remoteHost := rh, remoteTime := 0 }]) := by
    intro hcap
    constructor
    · intro lt rt
      obtain ⟨w1, e1, _⟩ :=
        pings_ok abi fuel sample_size w mem host lt rt h rest rounds hsz hgood hstream hh
          hsend hclock hr hf8 hfh
      rw [none_retained abi w w.timers rounds lt rt hclock hrange hcap] at e1
      rw [e1]; rfl
    · obtain ⟨w', e1, e2⟩ :=
        master_ok abi fuel sample_size w mem host h rest rounds hsz hgood hstream hh hsend
          hclock hr hf8 hfh
      rw [none_retained abi w w.timers rounds 0 0 hclock hrange hcap] at e2
      simp only [toSigned_zero] at e2
      exact ⟨_, _, by rw [e1]; simp only [Outcome.printed]; rw [e2]⟩
  refine ⟨?_, hnone, ?_⟩
  · intro hcap
    obtain ⟨pre, k, post, e, _, hpre, hpost, _⟩ :=
      last_minimum abi w w.timers rounds 0 0 hclock hrange hcap
    refine ⟨pre, k, post, e, hpre, hpost, ?_⟩
    intro lt rt
    obtain ⟨w1, e1, _⟩ :=
      pings_ok abi fuel sample_size w mem host lt rt h rest rounds hsz hgood hstream hh
        hsend hclock hr hf8 hfh
    obtain ⟨pre', k', post', e', _, hpre', hpost', hres⟩ :=
      last_minimum abi w w.timers rounds lt rt hclock hrange hcap
    have hkk : k' = k :=
      last_minimum_unique pre post pre' post' k k' (e ▸ e') hpre hpost hpre' hpost'
    rw [hres, hkk] at e1
    rw [e1]; rfl
  · intro hle
    have hnil : rounds = [] := by
      apply List.eq_nil_of_length_eq_zero
      rw [← hsz]
      exact Int.toNat_eq_zero.mpr hle
    apply hnone
    intro x hx
    rw [hnil] at hx
    simp at hx

/-- C9 at concrete sessions: scenario A for the first part, a single
round of duration 2,000,000,000 for the second. -/
theorem pings_initial_minimum_witness :
    (∃ pre k post, scenarioA = pre ++ k :: post ∧
        (∀ x ∈ pre, k.d ≤ x.d) ∧ (∀ x ∈ post, k.d < x.d) ∧
        ∀ lt rt : Int, (pings exampleAbi 8 5 scenarioAWorld zeroMem 0 lt rt).times =
          some (k.t0 + k.d / 2, k.r)) ∧
    ((∀ lt rt : Int, (pings exampleAbi 8 1 slowWorld zeroMem 0 lt rt).times =
        some (lt, rt)) ∧
      ∃ lh rh, (master exampleAbi 8 1 slowWorld zeroMem 0).printed =
        some (slowWorld.stdout ++
          [{ localHost := lh, localTime := 0, remoteHost := rh, remoteTime := 0 }])) :=
  ⟨(pings_initial_minimum exampleAbi 8 5 scenarioAWorld zeroMem 0 [104, 105] [] scenarioA
      (by decide) (by decide) (by decide) (by decide) (by decide) (by decide) (by decide)
      (by decide) (by decide)).1 (by decide),
   (pings_initial_minimum exampleAbi 8 1 slowWorld zeroMem 0 [104, 105] []
      [⟨100, 2000000000, 777⟩]
      (by decide) (by decide) (by decide) (by decide) (by decide) (by decide) (by decide)
      (by decide) (by decide)).2.1 (by decide)⟩

/-! ## C10: termination of `receive_data` -/

/-- C10. Termination of `receive_data`. (1) When the transport delivers
(every `recv` returns at least one byte and at most what was asked for)
a budget of `size` loop iterations, that is `size` calls of `recv`, is
enough for `receive_data` to return, and the call counter has advanced by
at most `size`. (2) With `size = 0` it returns at once without calling
`recv`, whatever the socket holds. (3) When every `recv` returns `0` and
`size > 0`, one execution of the loop body leaves `received`, `buffer`,
`size` and the memory as they were, the socket stays in that condition,
and `receive_data` does not return within any number of iterations. -/
theorem receive_data_recv_calls (w : World) (mem : Mem) (buffer : Int) :
    (∀ payload rest : List Nat, Good w.inbox → stream w.inbox = payload ++ rest →
        payload.length < 2 ^ 31 →
        ∃ mem' w', receive_data payload.length w mem buffer (payload.length : Int) =
            Outcome.returned mem' w' ∧
          w'.recvs ≤ w.recvs + payload.length) ∧
    (∀ fuel : Nat, ∃ w', receive_data fuel w mem buffer 0 = Outcome.returned mem w' ∧
        w'.recvs = w.recvs ∧ w'.inbox = w.inbox) ∧
    (∀ size : Int, (∀ e ∈ w.inbox, e = Event.data []) → 0 < size →
        (receive_body w mem { received := 0, buffer := buffer, size := size }).2 =
            (mem, { received := 0, buffer := buffer, size := size }) ∧
        (∀ e ∈ (receive_body w mem
              { received := 0, buffer := buffer, size := size }).1.inbox,
            e = Event.data []) ∧
        ∀ fuel : Nat, receive_data fuel w mem buffer size = Outcome.diverged) := by
  refine ⟨?_, ?_, ?_⟩
  · intro payload rest hgood hstream hsize
    obtain ⟨inbox', k, log, h1, _, _, hk, _⟩ :=
      receive_data_good w mem buffer payload rest payload.length hgood hstream
        (le_refl _) hsize
    exact ⟨_, _, h1, by simp [World.afterRecv]; exact hk⟩
  · intro fuel
    refine ⟨w, ?_, rfl, rfl⟩
    exact receive_loop_done _ _ _ _ rfl
  · intro size hs hpos
    obtain ⟨h1, h2⟩ := receive_body_silent w mem buffer size hs hpos
    exact ⟨h1, h2, fun fuel => receive_loop_silent fuel w mem buffer size hs hpos⟩

theorem receive_data_recv_calls_witness :
    (∃ mem' w', receive_data 3 oneByteWorld zeroMem 100 3 = Outcome.returned mem' w' ∧
        w'.recvs ≤ 3) ∧
    (receive_body closedWorld zeroMem { received := 0, buffer := 100, size := 4 }).2 =
        (zeroMem, { received := 0, buffer := 100, size := 4 }) ∧
    receive_data 1000 closedWorld zeroMem 100 4 = Outcome.diverged :=
  ⟨by simpa using (receive_data_recv_calls oneByteWorld zeroMem 100).1 [7, 8, 9] [10]
        (by decide) (by decide) (by decide),
   ((receive_data_recv_calls closedWorld zeroMem 100).2.2 4 (by decide) (by decide)).1,
   ((receive_data_recv_calls closedWorld zeroMem 100).2.2 4 (by decide) (by decide)).2.2 1000⟩

end Timesync
